import Mathlib

/-!
# Verification of the Googolplex-Books chunked annotation pipeline

A shallow embedding, over `List Char`, of the text-processing core of the
repository: the chunker (`create_chunks` in `src/processor.py` and in
`correcaoKDP.py`), the stage orchestrator (`process_chunks_parallel`), the
marker processors (`extract_footnotes` in `src/processor.py`, the
`[NOTA_...][CONTEUDO_NOTA:...]` substitution of `run_final_txt_generation` in
`correcaoKDP.py`), the retrying transform client (`_call_gemini_api`), the
SQLite correction cache (`CorrectionCache`), and the page-break handling of
`generate_docx`.

Python strings are modelled as `List Char` (Python `len` counts code points,
as does `List.length` here).  Whitespace predicates are restricted to the six
ASCII whitespace characters; the source additionally treats a handful of
Unicode whitespace code points the same way, which no theorem below depends
on.
-/

namespace GB

/-- The six ASCII whitespace characters recognised by Python's `str.strip()`
and by `\s` in its regexes. -/
def isPySpace (c : Char) : Bool :=
  c = ' ' || c = '\t' || c = '\n' || c = '\r' || c = '\x0b' || c = '\x0c'

/-- Python `str.strip()`: drop leading and trailing whitespace. -/
def pyStrip (l : List Char) : List Char :=
  ((l.dropWhile isPySpace).reverse.dropWhile isPySpace).reverse

/-- The non-whitespace characters of a string, in order.  Two strings with
the same `content` agree once every whitespace character is erased. -/
def content (l : List Char) : List Char :=
  l.filter (fun c => !isPySpace c)

/-- Concatenation of a list of strings (no separator). -/
def concatAll (ls : List (List Char)) : List Char :=
  ls.foldr (· ++ ·) []

theorem concatAll_nil : concatAll [] = [] := rfl

theorem concatAll_cons (l : List Char) (ls : List (List Char)) :
    concatAll (l :: ls) = l ++ concatAll ls := rfl

theorem concatAll_append (xs ys : List (List Char)) :
    concatAll (xs ++ ys) = concatAll xs ++ concatAll ys := by
  induction xs with
  | nil => rfl
  | cons x xs ih => simp [concatAll_cons, ih]

theorem length_dropWhile_le (p : Char → Bool) (l : List Char) :
    (l.dropWhile p).length ≤ l.length := by
  induction l with
  | nil => simp
  | cons c cs ih =>
    by_cases h : p c
    · rw [List.dropWhile_cons, if_pos h]
      exact Nat.le_succ_of_le ih
    · rw [List.dropWhile_cons, if_neg h]

theorem content_append (a b : List Char) :
    content (a ++ b) = content a ++ content b :=
  List.filter_append ..

theorem content_cons_of_space {c : Char} (h : isPySpace c) (l : List Char) :
    content (c :: l) = content l := by
  simp [content, List.filter_cons, h]

theorem content_dropWhile (l : List Char) :
    content (l.dropWhile isPySpace) = content l := by
  induction l with
  | nil => rfl
  | cons c cs ih =>
    rw [List.dropWhile_cons]
    by_cases h : isPySpace c
    · rw [if_pos h, ih, content_cons_of_space h]
    · rw [if_neg h]

theorem content_reverse (l : List Char) :
    content l.reverse = (content l).reverse :=
  List.filter_reverse ..

theorem content_pyStrip (l : List Char) : content (pyStrip l) = content l := by
  unfold pyStrip
  rw [content_reverse, content_dropWhile, content_reverse, content_dropWhile,
    List.reverse_reverse]

theorem content_eq_nil_of_pyStrip_eq_nil {l : List Char} (h : pyStrip l = []) :
    content l = [] := by
  rw [← content_pyStrip, h]; rfl

/-! ## Python `text.split("\n\n")` and its inverse

`splitParaCore` returns the first piece and the remaining pieces of the split;
`splitPara` is the full piece list.  `joinPara` re-intercalates `"\n\n"`. -/

def splitParaCore : List Char → List Char × List (List Char)
  | [] => ([], [])
  | [c] => ([c], [])
  | c1 :: c2 :: rest =>
    if c1 = '\n' ∧ c2 = '\n' then
      let s := splitParaCore rest
      ([], s.1 :: s.2)
    else
      let s := splitParaCore (c2 :: rest)
      (c1 :: s.1, s.2)

def splitPara (l : List Char) : List (List Char) :=
  (splitParaCore l).1 :: (splitParaCore l).2

def joinPara : List (List Char) → List Char
  | [] => []
  | [p] => p
  | p :: ps => p ++ '\n' :: '\n' :: joinPara ps

theorem joinPara_cons_cons (c : Char) (h : List Char) (t : List (List Char)) :
    joinPara ((c :: h) :: t) = c :: joinPara (h :: t) := by
  cases t <;> simp [joinPara]

/-- Splitting on the paragraph separator and re-intercalating it is the
identity: the split loses no characters. -/
theorem joinPara_splitPara (l : List Char) : joinPara (splitPara l) = l := by
  unfold splitPara
  induction l using splitParaCore.induct with
  | case1 => rfl
  | case2 c => rfl
  | case3 c1 c2 rest h ih =>
    obtain ⟨h1, h2⟩ := h
    subst h1; subst h2
    simp only [splitParaCore, if_pos (And.intro rfl rfl)]
    simpa [joinPara] using ih
  | case4 c1 c2 rest h ih =>
    simp only [splitParaCore, if_neg h]
    rw [joinPara_cons_cons]
    simpa using ih

theorem content_joinPara (ps : List (List Char)) :
    content (joinPara ps) = content (concatAll ps) := by
  induction ps with
  | nil => rfl
  | cons p ps ih =>
    cases ps with
    | nil => simp [joinPara, concatAll_cons, concatAll_nil]
    | cons q qs =>
      rw [show joinPara (p :: q :: qs) = p ++ '\n' :: '\n' :: joinPara (q :: qs) from rfl,
        concatAll_cons, content_append, content_append,
        content_cons_of_space (by decide), content_cons_of_space (by decide), ih]

/-- Erasing whitespace, the paragraph pieces of a text concatenate back to
the text. -/
theorem content_concatAll_splitPara (l : List Char) :
    content (concatAll (splitPara l)) = content l := by
  rw [← content_joinPara, joinPara_splitPara]

/-! ## Python `re.split(r'(?<=[.!?])\s+', para)`

The pattern matches a maximal whitespace run whose preceding character is a
sentence terminator `.`, `!` or `?`; matching is leftmost, non-overlapping.
`splitSentCore prevEnd l` scans `l` knowing whether the character just before
`l` was a sentence terminator. -/

def isSentEnd (c : Char) : Bool := c = '.' || c = '!' || c = '?'

/-- Scanner state: `norm` — the previous character is neither a sentence
terminator nor part of a separator being consumed; `afterEnd` — the previous
character was `.`, `!` or `?`; `inSep` — we are inside the whitespace run of
a separator match (its characters are consumed, and no new separator can
start until a non-whitespace character is seen). -/
inductive SentMode | norm | afterEnd | inSep
deriving DecidableEq

def sentModeOf (c : Char) : SentMode :=
  if isSentEnd c then .afterEnd else .norm

def splitSentGo : SentMode → List Char → List Char × List (List Char)
  | _, [] => ([], [])
  | .inSep, c :: rest =>
    if isPySpace c then splitSentGo .inSep rest
    else
      let s := splitSentGo (sentModeOf c) rest
      (c :: s.1, s.2)
  | .afterEnd, c :: rest =>
    if isPySpace c then
      let s := splitSentGo .inSep rest
      ([], s.1 :: s.2)
    else
      let s := splitSentGo (sentModeOf c) rest
      (c :: s.1, s.2)
  | .norm, c :: rest =>
    let s := splitSentGo (sentModeOf c) rest
    (c :: s.1, s.2)

def splitSent (l : List Char) : List (List Char) :=
  ((splitSentGo .norm l).1 :: (splitSentGo .norm l).2)

/-- The sentence split only discards whitespace: erasing whitespace, the
pieces concatenate back to the paragraph. -/
theorem content_splitSentGo (m : SentMode) (l : List Char) :
    content (concatAll ((splitSentGo m l).1 :: (splitSentGo m l).2)) = content l := by
  induction l generalizing m with
  | nil => cases m <;> rfl
  | cons c rest ih =>
    have hstep : ∀ m', content (concatAll ((c :: (splitSentGo m' rest).1) ::
        (splitSentGo m' rest).2)) = content (c :: rest) := by
      intro m'
      rw [concatAll_cons, List.cons_append,
        show content (c :: ((splitSentGo m' rest).1 ++ concatAll (splitSentGo m' rest).2)) =
          content [c] ++ content ((splitSentGo m' rest).1 ++ concatAll (splitSentGo m' rest).2) from
          content_append [c] _,
        ← concatAll_cons, ih, ← content_append, List.singleton_append]
    cases m with
    | norm => exact hstep _
    | afterEnd =>
      by_cases h : isPySpace c
      · rw [show splitSentGo .afterEnd (c :: rest) =
            ([], (splitSentGo .inSep rest).1 :: (splitSentGo .inSep rest).2) by
            simp [splitSentGo, h]]
        rw [concatAll_cons, List.nil_append, ih, content_cons_of_space h]
      · rw [show splitSentGo .afterEnd (c :: rest) =
            (c :: (splitSentGo (sentModeOf c) rest).1, (splitSentGo (sentModeOf c) rest).2) by
            simp [splitSentGo, h]]
        exact hstep _
    | inSep =>
      by_cases h : isPySpace c
      · rw [show splitSentGo .inSep (c :: rest) = splitSentGo .inSep rest by
            simp [splitSentGo, h]]
        rw [ih, content_cons_of_space h]
      · rw [show splitSentGo .inSep (c :: rest) =
            (c :: (splitSentGo (sentModeOf c) rest).1, (splitSentGo (sentModeOf c) rest).2) by
            simp [splitSentGo, h]]
        exact hstep _

theorem content_concatAll_splitSent (l : List Char) :
    content (concatAll (splitSent l)) = content l :=
  content_splitSentGo .norm l

/-! ## `create_chunks` (src/processor.py, lines 266-340)

Token estimator: the source uses tiktoken when installed and otherwise
`len(text) // 4`; we embed the deterministic fallback estimator, which is
also the only one whose values the code's guards can be reasoned about. -/

def count_tokens (l : List Char) : Nat := l.length / 4

/-- State of the paragraph loop: the chunks emitted so far, the accumulator
`current` and the tracked `current_tokens`. -/
structure PState where
  chunks : List (List Char)
  current : List Char
  currentTokens : Nat

/-- State of the sentence-subdivision loop. -/
structure SState where
  chunks : List (List Char)
  sub : List Char
  subTokens : Nat

/-- State of the final merge pass. -/
structure MState where
  merged : List (List Char)
  temp : List Char
  tempTokens : Nat

/-- One iteration of the sentence loop inside `create_chunks` (the `for sent
in sentences` loop). -/
def processSent (maxTokens : Nat) (st : SState) (sent : List Char) : SState :=
  let sentTokens := count_tokens sent
  if st.subTokens + sentTokens + 1 ≤ maxTokens then
    let sub' := st.sub ++ (if st.sub.isEmpty then [] else [' ']) ++ sent
    { st with sub := sub', subTokens := count_tokens sub' }
  else
    let chunks' := if st.sub.isEmpty then st.chunks else st.chunks ++ [st.sub]
    if maxTokens < sentTokens then
      { chunks := chunks' ++ [sent], sub := [], subTokens := 0 }
    else
      { chunks := chunks', sub := sent, subTokens := sentTokens }

/-- One iteration of the paragraph loop of `create_chunks` (the `for para in
text.split("\n\n")` loop). -/
def processPara (maxTokens : Nat) (st : PState) (para0 : List Char) : PState :=
  let para := pyStrip para0
  if para.isEmpty then st
  else
    let paraTokens := count_tokens para
    if st.currentTokens + paraTokens + 2 ≤ maxTokens then
      let current' := st.current ++ (if st.current.isEmpty then [] else ['\n', '\n']) ++ para
      { st with current := current', currentTokens := count_tokens current' }
    else
      let chunks' := if st.current.isEmpty then st.chunks else st.chunks ++ [st.current]
      if maxTokens < paraTokens then
        let s := (splitSent para).foldl (processSent maxTokens) ⟨chunks', [], 0⟩
        { chunks := s.chunks, current := s.sub,
          currentTokens := if s.sub.isEmpty then 0 else s.subTokens }
      else
        { chunks := chunks', current := para, currentTokens := paraTokens }

/-- One iteration of the merge pass of `create_chunks` (the `for chunk in
chunks` loop). -/
def mergeStep (maxTokens : Nat) (st : MState) (chunk : List Char) : MState :=
  let chunkTokens := count_tokens chunk
  if st.tempTokens + chunkTokens + 2 ≤ maxTokens then
    let temp' := st.temp ++ (if st.temp.isEmpty then [] else ['\n', '\n']) ++ chunk
    { st with temp := temp', tempTokens := count_tokens temp' }
  else
    { merged := if st.temp.isEmpty then st.merged else st.merged ++ [st.temp],
      temp := chunk, tempTokens := chunkTokens }

/-- `create_chunks(text, max_tokens)` from `src/processor.py`. -/
def create_chunks (text : List Char) (maxTokens : Nat) : List (List Char) :=
  if (pyStrip text).isEmpty then []
  else
    let st := (splitPara text).foldl (processPara maxTokens) ⟨[], [], 0⟩
    let chunks := if st.current.isEmpty then st.chunks else st.chunks ++ [st.current]
    let ms := chunks.foldl (mergeStep maxTokens) ⟨[], [], 0⟩
    if ms.temp.isEmpty then ms.merged else ms.merged ++ [ms.temp]

/-! ## Claim C2: chunk coverage -/

theorem content_if_space (P : Prop) [Decidable P] :
    content (if P then ([] : List Char) else [' ']) = [] := by
  by_cases h : P
  · rw [if_pos h]; rfl
  · rw [if_neg h]; rfl

theorem content_if_nl2 (P : Prop) [Decidable P] :
    content (if P then ([] : List Char) else ['\n', '\n']) = [] := by
  by_cases h : P
  · rw [if_pos h]; rfl
  · rw [if_neg h]; rfl

theorem content_concat_flush (chunks : List (List Char)) (cur : List Char) :
    content (concatAll (if cur.isEmpty then chunks else chunks ++ [cur])) =
    content (concatAll chunks ++ cur) := by
  by_cases h : cur.isEmpty
  · rw [if_pos h, List.isEmpty_iff.mp h, List.append_nil]
  · rw [if_neg h, concatAll_append, concatAll_cons, concatAll_nil, List.append_nil,
      content_append]

theorem content_concat_flush' (chunks : List (List Char)) (cur : List Char) :
    content (concatAll (if cur = [] then chunks else chunks ++ [cur])) =
    content (concatAll chunks) ++ content cur := by
  by_cases h : cur = []
  · rw [if_pos h, h]
    simp [content]
  · rw [if_neg h, concatAll_append, concatAll_cons, concatAll_nil, List.append_nil,
      content_append]

/-- Accumulation through a fold: if one step appends the content of its
argument to the measure `m`, the whole fold appends the content of the
concatenation. -/
theorem foldl_content_accum {σ : Type} (f : σ → List Char → σ) (m : σ → List Char)
    (hstep : ∀ s a, m (f s a) = m s ++ content a) :
    ∀ (l : List (List Char)) (s : σ), m (l.foldl f s) = m s ++ content (concatAll l) := by
  intro l
  induction l with
  | nil => intro s; simp [concatAll_nil, content]
  | cons a l ih =>
    intro s
    rw [List.foldl_cons, ih, hstep, concatAll_cons, content_append, List.append_assoc]

theorem content_processSent (maxTokens : Nat) (st : SState) (sent : List Char) :
    content (concatAll (processSent maxTokens st sent).chunks ++ (processSent maxTokens st sent).sub) =
    content (concatAll st.chunks ++ st.sub) ++ content sent := by
  unfold processSent
  by_cases h1 : st.subTokens + count_tokens sent + 1 ≤ maxTokens
  · rw [if_pos h1]
    dsimp only
    simp [content_append, content_if_space, List.append_assoc]
  · rw [if_neg h1]
    by_cases h2 : maxTokens < count_tokens sent
    · rw [if_pos h2]
      dsimp only
      simp [content_append, concatAll_append, concatAll_cons, concatAll_nil,
        content_concat_flush, content_concat_flush', List.append_assoc]
    · rw [if_neg h2]
      dsimp only
      simp [content_append, content_concat_flush, content_concat_flush']

theorem content_processPara (maxTokens : Nat) (st : PState) (para0 : List Char) :
    content (concatAll (processPara maxTokens st para0).chunks ++ (processPara maxTokens st para0).current) =
    content (concatAll st.chunks ++ st.current) ++ content para0 := by
  unfold processPara
  have hpara : content (pyStrip para0) = content para0 := content_pyStrip para0
  by_cases h0 : (pyStrip para0).isEmpty
  · rw [if_pos h0, content_eq_nil_of_pyStrip_eq_nil (List.isEmpty_iff.mp h0), List.append_nil]
  · rw [if_neg h0]
    by_cases h1 : st.currentTokens + count_tokens (pyStrip para0) + 2 ≤ maxTokens
    · rw [if_pos h1]
      dsimp only
      simp [content_append, content_if_nl2, List.append_assoc, hpara]
    · rw [if_neg h1]
      by_cases h2 : maxTokens < count_tokens (pyStrip para0)
      · rw [if_pos h2]
        dsimp only
        have hfold := foldl_content_accum (processSent maxTokens)
          (fun sst => content (concatAll sst.chunks ++ sst.sub))
          (content_processSent maxTokens) (splitSent (pyStrip para0))
          ⟨if st.current.isEmpty then st.chunks else st.chunks ++ [st.current], [], 0⟩
        simp only [] at hfold
        rw [hfold, content_concatAll_splitSent, hpara, List.append_nil,
          content_concat_flush, content_append]
      · rw [if_neg h2]
        dsimp only
        simp [content_append, content_concat_flush, content_concat_flush', hpara]

theorem content_mergeStep (maxTokens : Nat) (st : MState) (chunk : List Char) :
    content (concatAll (mergeStep maxTokens st chunk).merged ++ (mergeStep maxTokens st chunk).temp) =
    content (concatAll st.merged ++ st.temp) ++ content chunk := by
  unfold mergeStep
  by_cases h1 : st.tempTokens + count_tokens chunk + 2 ≤ maxTokens
  · rw [if_pos h1]
    dsimp only
    simp [content_append, content_if_nl2, List.append_assoc]
  · rw [if_neg h1]
    dsimp only
    simp [content_append, content_concat_flush, content_concat_flush']

/-- **C2, amended** (`create_chunks`, `src/processor.py` 266-340).  The chunker
preserves every non-whitespace character, in order: erasing whitespace, the
concatenation of all produced chunks equals the original text (for every
input and every `maxSize`).  The claim's exact-reproduction form fails — see
`c2_counterexample` — because paragraphs are stripped, blank paragraphs are
dropped, and sentence-separator whitespace is normalised; only whitespace is
ever affected. -/
theorem c2_chunk_coverage (text : List Char) (maxTokens : Nat) :
    content (concatAll (create_chunks text maxTokens)) = content text := by
  unfold create_chunks
  by_cases h0 : (pyStrip text).isEmpty
  · rw [if_pos h0, concatAll_nil, content_eq_nil_of_pyStrip_eq_nil (List.isEmpty_iff.mp h0)]
    rfl
  · rw [if_neg h0]
    dsimp only
    have hpfold := foldl_content_accum (processPara maxTokens)
      (fun st => content (concatAll st.chunks ++ st.current))
      (content_processPara maxTokens) (splitPara text) ⟨[], [], 0⟩
    simp only [] at hpfold
    rw [content_concatAll_splitPara] at hpfold
    set pst := (splitPara text).foldl (processPara maxTokens) ⟨[], [], 0⟩ with hpst
    have hmfold := foldl_content_accum (mergeStep maxTokens)
      (fun st => content (concatAll st.merged ++ st.temp))
      (content_mergeStep maxTokens)
      (if pst.current.isEmpty then pst.chunks else pst.chunks ++ [pst.current])
      ⟨[], [], 0⟩
    simp only [] at hmfold
    set mst := (if pst.current.isEmpty then pst.chunks else pst.chunks ++ [pst.current]).foldl
      (mergeStep maxTokens) ⟨[], [], 0⟩ with hmst
    rw [content_concat_flush, hmfold, content_concat_flush, hpfold]
    simp [concatAll_nil, content]

/-- **C2, counterexample.**  For input `" a"` (leading space) and a generous
bound, the chunker returns the single chunk `"a"`: no separator was
re-inserted anywhere, yet the concatenation of the chunks is `"a"`, which is
not the original text — exact reproduction fails. -/
theorem c2_counterexample :
    concatAll (create_chunks " a".data 100) = "a".data ∧ "a".data ≠ " a".data := by
  decide

/-! ## Claim C5: chunk bound -/

theorem count_tokens_glue1 {a sep b : List Char} (h : sep.length ≤ 1) :
    count_tokens (a ++ sep ++ b) ≤ count_tokens a + count_tokens b + 1 := by
  simp only [count_tokens, List.length_append]
  omega

theorem count_tokens_glue2 {a sep b : List Char} (h : sep.length ≤ 2) :
    count_tokens (a ++ sep ++ b) ≤ count_tokens a + count_tokens b + 2 := by
  simp only [count_tokens, List.length_append]
  omega

theorem length_if_sep_le {P : Prop} [Decidable P] (sep : List Char) :
    (if P then ([] : List Char) else sep).length ≤ sep.length := by
  by_cases h : P
  · rw [if_pos h]; exact Nat.zero_le _
  · rw [if_neg h]

/-- A chunk that is allowed to exceed the bound: a single sentence/line unit,
produced by subdividing some paragraph of the input that itself exceeds the
bound, whose own estimated size exceeds the bound. -/
def isOversizedUnit (text : List Char) (maxTokens : Nat) (c : List Char) : Prop :=
  ∃ para ∈ splitPara text, maxTokens < count_tokens (pyStrip para) ∧
    c ∈ splitSent (pyStrip para) ∧ maxTokens < count_tokens c

/-- Generic fold invariant. -/
theorem foldl_inv {σ α : Type} (f : σ → α → σ) (P : σ → Prop) (C : α → Prop)
    (step : ∀ s a, P s → C a → P (f s a)) :
    ∀ (l : List α), (∀ a ∈ l, C a) → ∀ s, P s → P (l.foldl f s) := by
  intro l
  induction l with
  | nil => intro _ s hs; exact hs
  | cons a l ih =>
    intro hl s hs
    rw [List.foldl_cons]
    exact ih (fun x hx => hl x (List.mem_cons_of_mem a hx)) _
      (step s a hs (hl a (List.mem_cons_self a l)))

def chunkOK (text : List Char) (maxTokens : Nat) (c : List Char) : Prop :=
  count_tokens c ≤ maxTokens ∨ isOversizedUnit text maxTokens c

def SInv (text : List Char) (maxTokens : Nat) (st : SState) : Prop :=
  (∀ c ∈ st.chunks, chunkOK text maxTokens c) ∧
  (st.sub = [] ∨ count_tokens st.sub ≤ maxTokens) ∧
  st.subTokens = count_tokens st.sub

def PInv (text : List Char) (maxTokens : Nat) (st : PState) : Prop :=
  (∀ c ∈ st.chunks, chunkOK text maxTokens c) ∧
  (st.current = [] ∨ count_tokens st.current ≤ maxTokens) ∧
  st.currentTokens = count_tokens st.current

def MInv (text : List Char) (maxTokens : Nat) (st : MState) : Prop :=
  (∀ c ∈ st.merged, chunkOK text maxTokens c) ∧
  (st.temp = [] ∨ chunkOK text maxTokens st.temp) ∧
  st.tempTokens = count_tokens st.temp

theorem mem_flush {c cur : List Char} {chunks : List (List Char)}
    (hc : c ∈ (if cur.isEmpty then chunks else chunks ++ [cur])) :
    c ∈ chunks ∨ (c = cur ∧ ¬cur.isEmpty) := by
  by_cases h : cur.isEmpty
  · rw [if_pos h] at hc; exact Or.inl hc
  · rw [if_neg h] at hc
    rcases List.mem_append.mp hc with h1 | h1
    · exact Or.inl h1
    · exact Or.inr ⟨List.mem_singleton.mp h1, h⟩

theorem sinv_processSent {text : List Char} {maxTokens : Nat} {para0 : List Char}
    (hpara : para0 ∈ splitPara text) (hbig : maxTokens < count_tokens (pyStrip para0))
    (st : SState) (sent : List Char) (hsent : sent ∈ splitSent (pyStrip para0))
    (hinv : SInv text maxTokens st) : SInv text maxTokens (processSent maxTokens st sent) := by
  obtain ⟨hchunks, hsub, htok⟩ := hinv
  unfold processSent
  by_cases h1 : st.subTokens + count_tokens sent + 1 ≤ maxTokens
  · rw [if_pos h1]
    dsimp only
    refine ⟨hchunks, Or.inr ?_, rfl⟩
    calc count_tokens (st.sub ++ (if st.sub.isEmpty then [] else [' ']) ++ sent)
        ≤ count_tokens st.sub + count_tokens sent + 1 :=
          count_tokens_glue1 (by simpa using length_if_sep_le [' '])
      _ ≤ maxTokens := by omega
  · rw [if_neg h1]
    have hflush : ∀ c ∈ (if st.sub.isEmpty then st.chunks else st.chunks ++ [st.sub]),
        chunkOK text maxTokens c := by
      intro c hc
      rcases mem_flush hc with h | ⟨rfl, hne⟩
      · exact hchunks c h
      · rcases hsub with h' | h'
        · exact absurd (by rw [h']; rfl) hne
        · exact Or.inl h'
    by_cases h2 : maxTokens < count_tokens sent
    · rw [if_pos h2]
      dsimp only [SInv]
      refine ⟨?_, Or.inl rfl, by dsimp only [count_tokens]; rfl⟩
      intro c hc
      rcases List.mem_append.mp hc with h | h
      · exact hflush c h
      · rw [List.mem_singleton.mp h]
        exact Or.inr ⟨para0, hpara, hbig, hsent, h2⟩
    · rw [if_neg h2]
      dsimp only [SInv]
      exact ⟨hflush, Or.inr (by omega), rfl⟩

theorem pinv_processPara {text : List Char} {maxTokens : Nat}
    (st : PState) (para0 : List Char) (hpara : para0 ∈ splitPara text)
    (hinv : PInv text maxTokens st) : PInv text maxTokens (processPara maxTokens st para0) := by
  obtain ⟨hchunks, hcur, htok⟩ := hinv
  unfold processPara
  by_cases h0 : (pyStrip para0).isEmpty
  · rw [if_pos h0]; exact ⟨hchunks, hcur, htok⟩
  · rw [if_neg h0]
    have hflush : ∀ c ∈ (if st.current.isEmpty then st.chunks else st.chunks ++ [st.current]),
        chunkOK text maxTokens c := by
      intro c hc
      rcases mem_flush hc with h | ⟨rfl, hne⟩
      · exact hchunks c h
      · rcases hcur with h' | h'
        · exact absurd (by rw [h']; rfl) hne
        · exact Or.inl h'
    by_cases h1 : st.currentTokens + count_tokens (pyStrip para0) + 2 ≤ maxTokens
    · rw [if_pos h1]
      dsimp only
      refine ⟨hchunks, Or.inr ?_, rfl⟩
      calc count_tokens (st.current ++ (if st.current.isEmpty then [] else ['\n', '\n']) ++ pyStrip para0)
          ≤ count_tokens st.current + count_tokens (pyStrip para0) + 2 :=
            count_tokens_glue2 (by simpa using length_if_sep_le ['\n', '\n'])
        _ ≤ maxTokens := by omega
    · rw [if_neg h1]
      by_cases h2 : maxTokens < count_tokens (pyStrip para0)
      · rw [if_pos h2]
        dsimp only
        have hs : SInv text maxTokens ((splitSent (pyStrip para0)).foldl (processSent maxTokens)
            ⟨if st.current.isEmpty then st.chunks else st.chunks ++ [st.current], [], 0⟩) := by
          refine foldl_inv (processSent maxTokens) (SInv text maxTokens)
            (fun sent => sent ∈ splitSent (pyStrip para0))
            (fun s a hp hc => sinv_processSent hpara h2 s a hc hp)
            (splitSent (pyStrip para0)) (fun a ha => ha) _
            ⟨hflush, Or.inl rfl, by dsimp only [count_tokens]; rfl⟩
        obtain ⟨hc1, hc2, hc3⟩ := hs
        refine ⟨hc1, hc2, ?_⟩
        by_cases hemp : ((splitSent (pyStrip para0)).foldl (processSent maxTokens)
            ⟨if st.current.isEmpty then st.chunks else st.chunks ++ [st.current], [], 0⟩).sub.isEmpty
        · rw [if_pos hemp, List.isEmpty_iff.mp hemp]
          dsimp only [count_tokens]; rfl
        · rw [if_neg hemp]; exact hc3
      · rw [if_neg h2]
        dsimp only [PInv]
        exact ⟨hflush, Or.inr (by omega), rfl⟩

theorem minv_mergeStep {text : List Char} {maxTokens : Nat}
    (st : MState) (chunk : List Char) (hchunk : chunkOK text maxTokens chunk)
    (hinv : MInv text maxTokens st) : MInv text maxTokens (mergeStep maxTokens st chunk) := by
  obtain ⟨hmerged, htemp, htok⟩ := hinv
  unfold mergeStep
  by_cases h1 : st.tempTokens + count_tokens chunk + 2 ≤ maxTokens
  · rw [if_pos h1]
    dsimp only
    refine ⟨hmerged, Or.inr (Or.inl ?_), rfl⟩
    calc count_tokens (st.temp ++ (if st.temp.isEmpty then [] else ['\n', '\n']) ++ chunk)
        ≤ count_tokens st.temp + count_tokens chunk + 2 :=
          count_tokens_glue2 (by simpa using length_if_sep_le ['\n', '\n'])
      _ ≤ maxTokens := by omega
  · rw [if_neg h1]
    dsimp only [MInv]
    refine ⟨?_, Or.inr hchunk, rfl⟩
    intro c hc
    rcases mem_flush hc with h | ⟨rfl, hne⟩
    · exact hmerged c h
    · rcases htemp with h' | h'
      · exact absurd (by rw [h']; rfl) hne
      · exact h'

/-- **C5, amended** (`create_chunks`, `src/processor.py` 266-340, with the
`len // 4` estimator).  Every chunk the `src/processor.py` chunker produces
either has estimated size at most `maxTokens`, or is one of the
oversized-after-subdivision units: a single sentence/line of an oversized
paragraph whose own estimated size exceeds `maxTokens`.  The original claim,
which also covers the `correcaoKDP.py` chunker, fails there — see
`c5_counterexample`. -/
theorem c5_chunk_bound (text : List Char) (maxTokens : Nat) (c : List Char)
    (hc : c ∈ create_chunks text maxTokens) :
    count_tokens c ≤ maxTokens ∨ isOversizedUnit text maxTokens c := by
  unfold create_chunks at hc
  by_cases h0 : (pyStrip text).isEmpty
  · rw [if_pos h0] at hc; exact absurd hc (List.not_mem_nil c)
  · rw [if_neg h0] at hc
    dsimp only at hc
    have hp : PInv text maxTokens ((splitPara text).foldl (processPara maxTokens) ⟨[], [], 0⟩) := by
      refine foldl_inv (processPara maxTokens) (PInv text maxTokens)
        (fun para => para ∈ splitPara text)
        (fun s a hs ha => pinv_processPara s a ha hs)
        (splitPara text) (fun a ha => ha) _ ?_
      exact ⟨fun c hc => absurd hc (List.not_mem_nil c), Or.inl rfl,
        by dsimp only [count_tokens]; rfl⟩
    set pst := (splitPara text).foldl (processPara maxTokens) ⟨[], [], 0⟩
    obtain ⟨hp1, hp2, _⟩ := hp
    have hallQ : ∀ x ∈ (if pst.current.isEmpty then pst.chunks else pst.chunks ++ [pst.current]),
        chunkOK text maxTokens x := by
      intro x hx
      rcases mem_flush hx with h | ⟨rfl, hne⟩
      · exact hp1 x h
      · rcases hp2 with h' | h'
        · exact absurd (by rw [h']; rfl) hne
        · exact Or.inl h'
    have hm : MInv text maxTokens
        ((if pst.current.isEmpty then pst.chunks else pst.chunks ++ [pst.current]).foldl
          (mergeStep maxTokens) ⟨[], [], 0⟩) := by
      refine foldl_inv (mergeStep maxTokens) (MInv text maxTokens)
        (chunkOK text maxTokens)
        (fun s a hs ha => minv_mergeStep s a ha hs)
        _ hallQ _ ?_
      exact ⟨fun c hc => absurd hc (List.not_mem_nil c), Or.inl rfl,
        by dsimp only [count_tokens]; rfl⟩
    set mst := (if pst.current.isEmpty then pst.chunks else pst.chunks ++ [pst.current]).foldl
      (mergeStep maxTokens) ⟨[], [], 0⟩
    obtain ⟨hm1, hm2, _⟩ := hm
    rcases mem_flush hc with h | ⟨rfl, hne⟩
    · exact hm1 c h
    · rcases hm2 with h' | h'
      · exact absurd (by rw [h']; rfl) hne
      · exact h'

/-! ## `create_chunks` (correcaoKDP.py, lines 137-272)

Needed to settle C5 as stated: the claim also covers this implementation,
whose estimator is `len(text) // 3` (`count_tokens_approx`) and whose guards
price the separator at `count_tokens_approx("\n\n") = 0` tokens. -/

def count_tokens_approx (l : List Char) : Nat := l.length / 3

/-- Python `paragraph_text.split('\n')` (the fallback subdivision). -/
def splitNLCore : List Char → List Char × List (List Char)
  | [] => ([], [])
  | c :: rest =>
    if c = '\n' then
      let s := splitNLCore rest
      ([], s.1 :: s.2)
    else
      let s := splitNLCore rest
      (c :: s.1, s.2)

def splitNL (l : List Char) : List (List Char) :=
  (splitNLCore l).1 :: (splitNLCore l).2

structure KPState where
  chunks : List (List Char)
  current : List Char
  currentTokens : Nat

/-- Sentence-loop state; `added` is `sub_chunks_added_count`. -/
structure KSState where
  chunks : List (List Char)
  sub : List Char
  subTokens : Nat
  added : Nat

def kdpProcessSent (maxTokens : Nat) (st : KSState) (sentence : List Char) : KSState :=
  if (pyStrip sentence).isEmpty then st
  else
    let sentenceTokens := count_tokens_approx sentence
    let tokensWithSubSep := sentenceTokens +
      (if st.sub.isEmpty then 0 else count_tokens_approx ['\n'])
    if st.subTokens + tokensWithSubSep ≤ maxTokens then
      let sub' := st.sub ++ (if st.sub.isEmpty then [] else ['\n']) ++ sentence
      { st with sub := sub', subTokens := count_tokens_approx sub' }
    else
      let chunks' := if st.sub.isEmpty then st.chunks else st.chunks ++ [st.sub]
      let added' := if st.sub.isEmpty then st.added else st.added + 1
      if maxTokens < sentenceTokens then
        { chunks := chunks' ++ [sentence], sub := [], subTokens := 0, added := added' + 1 }
      else
        { chunks := chunks', sub := sentence, subTokens := sentenceTokens, added := added' }

def kdpProcessPara (maxTokens : Nat) (st : KPState) (para : List Char) : KPState :=
  if (pyStrip para).isEmpty then
    { st with chunks :=
        match st.chunks.getLast? with
        | none => st.chunks
        | some last =>
          if ¬(pyStrip last).isEmpty ∧ ¬(['\n', '\n'].isSuffixOf last) then
            st.chunks.dropLast ++ [last ++ ['\n', '\n']]
          else st.chunks }
  else
    let paragraphTokens := count_tokens_approx para
    let tokensWithSeparator := paragraphTokens +
      (if st.current.isEmpty then 0 else count_tokens_approx ['\n', '\n'])
    if st.currentTokens + tokensWithSeparator ≤ maxTokens then
      let current' := st.current ++ (if st.current.isEmpty then [] else ['\n', '\n']) ++ para
      { st with current := current', currentTokens := count_tokens_approx current' }
    else
      let chunks0 := if st.current.isEmpty then st.chunks else st.chunks ++ [st.current]
      if maxTokens < paragraphTokens then
        let sentences := if (splitSent para).length ≤ 1 then splitNL para else splitSent para
        let fs := sentences.foldl (kdpProcessSent maxTokens) ⟨chunks0, [], 0, 0⟩
        let chunks1 := if fs.sub.isEmpty then fs.chunks else fs.chunks ++ [fs.sub]
        let added1 := if fs.sub.isEmpty then fs.added else fs.added + 1
        let chunks2 := if added1 = 0 then chunks1 ++ [para] else chunks1
        { chunks := chunks2, current := [], currentTokens := 0 }
      else
        { chunks := chunks0, current := para, currentTokens := paragraphTokens }

def kdpMergeStep (maxTokens : Nat) (st : MState) (chunk : List Char) : MState :=
  let chunkTokens := count_tokens_approx chunk
  let tokensWithSeparator := chunkTokens +
    (if st.temp.isEmpty then 0 else count_tokens_approx ['\n', '\n'])
  if st.tempTokens + tokensWithSeparator ≤ maxTokens then
    let temp' := st.temp ++ (if st.temp.isEmpty then [] else ['\n', '\n']) ++ chunk
    { st with temp := temp', tempTokens := count_tokens_approx temp' }
  else
    { merged := if st.temp.isEmpty then st.merged else st.merged ++ [st.temp],
      temp := chunk, tempTokens := chunkTokens }

/-- `create_chunks(text, max_tokens, ...)` from `correcaoKDP.py`. -/
def create_chunks_kdp (text : List Char) (maxTokens : Nat) : List (List Char) :=
  let st := (splitPara text).foldl (kdpProcessPara maxTokens) ⟨[], [], 0⟩
  let chunks := if st.current.isEmpty then st.chunks else st.chunks ++ [st.current]
  let ms := chunks.foldl (kdpMergeStep maxTokens) ⟨[], [], 0⟩
  if ms.temp.isEmpty then ms.merged else ms.merged ++ [ms.temp]

/-- **C5, counterexample.**  The claim covers both chunker implementations;
it fails on `correcaoKDP.py`'s: for input `"ab\n\nab"` and `maxSize = 1`, the
two zero-token paragraphs are merged into the single chunk `"ab\n\nab"` of
estimated size `6 // 3 = 2 > 1` — the separator is priced at `0` tokens by
the guard, but the recomputed size of the merged accumulator jumps above the
bound.  The offending chunk is not an oversized-after-subdivision unit: every
paragraph of the input is within the bound (last conjunct), so no subdivision
ever runs. -/
theorem c5_counterexample :
    create_chunks_kdp "ab\n\nab".data 1 = ["ab\n\nab".data] ∧
    count_tokens_approx "ab\n\nab".data = 2 ∧
    ¬count_tokens_approx "ab\n\nab".data ≤ 1 ∧
    (∀ p ∈ splitPara "ab\n\nab".data, count_tokens_approx p ≤ 1) := by
  decide

theorem c5_witness :
    "abcd".data ∈ create_chunks "abcd".data 100 ∧
    (count_tokens "abcd".data ≤ 100 ∨ isOversizedUnit "abcd".data 100 "abcd".data) :=
  ⟨by decide, c5_chunk_bound "abcd".data 100 "abcd".data (by decide)⟩

/-! ## Claims C1 and C3: the stage orchestrator

`process_chunks_parallel` (src/processor.py, lines 440-475) runs
`process_correction` / `process_footnotes` tasks over the chunk list and
writes each task's result into `results[idx]`, a pre-sized array indexed by
the chunk's ordinal; slots left `None` (a task raised) are back-filled with
the original chunk.

The per-task interaction with the cache and the model is abstracted into an
`Outcome` per ordinal: a cache hit with value `v`, a successful generation
`v`, a permanent generation failure (`client.generate` returned `None` after
its retries), or a raised exception (surfaced by
`asyncio.gather(..., return_exceptions=True)`).  The nondeterministic
completion order of the concurrent workers is modelled by running the
resulting index-tagged writes in an arbitrary permutation of the write set. -/

def AI_FAILURE_MARKER : List Char := "*** FALHA NA IA ***".data

inductive Mode | correction | footnotes
deriving DecidableEq

inductive Outcome
  | cached (v : List Char)
  | success (v : List Char)
  | failure
  | exception
deriving DecidableEq

/-- The value a finished task writes into `results[idx]` for its chunk, if
any: `process_correction` / `process_footnotes` return the cached value, the
generated value, or their fallback; a raised exception writes nothing. -/
def taskResult (mode : Mode) (chunk : List Char) : Outcome → Option (List Char)
  | .cached v => some v
  | .success v => some v
  | .failure =>
    some (match mode with
      | .correction => AI_FAILURE_MARKER ++ '\n' :: '\n' :: chunk
      | .footnotes => chunk)
  | .exception => none

/-- All index-tagged writes of one stage run, in ordinal order. -/
def writeSet (mode : Mode) (chunks : List (List Char)) (outcome : Nat → Outcome) :
    List (Nat × List Char) :=
  (List.range chunks.length).filterMap
    (fun i => (taskResult mode (chunks.getD i []) (outcome i)).map (fun t => (i, t)))

/-- Execute the writes `results[idx] = text` over the pre-sized array. -/
def applyWrites (init : List (Option (List Char))) (ws : List (Nat × List Char)) :
    List (Option (List Char)) :=
  ws.foldl (fun acc w => acc.set w.1 (some w.2)) init

/-- `process_chunks_parallel`: run the writes (in the completion order `ws`),
then back-fill `None` slots with the original chunks. -/
def process_chunks_parallel (mode : Mode) (chunks : List (List Char))
    (outcome : Nat → Outcome) (ws : List (Nat × List Char)) : List (List Char) :=
  let results := applyWrites (List.replicate chunks.length none) ws
  List.zipWith (fun r c => r.getD c) results chunks

theorem applyWrites_length (init : List (Option (List Char))) (ws : List (Nat × List Char)) :
    (applyWrites init ws).length = init.length := by
  unfold applyWrites
  induction ws generalizing init with
  | nil => rfl
  | cons w ws ih => rw [List.foldl_cons, ih, List.length_set]

theorem applyWrites_not_mem (init : List (Option (List Char))) (ws : List (Nat × List Char))
    (i : Nat) (hi : ∀ p ∈ ws, p.1 ≠ i) :
    (applyWrites init ws)[i]? = init[i]? := by
  unfold applyWrites
  induction ws generalizing init with
  | nil => rfl
  | cons w ws ih =>
    rw [List.foldl_cons]
    rw [ih (init.set w.1 (some w.2)) (fun p hp => hi p (List.mem_cons_of_mem w hp))]
    exact List.getElem?_set_ne (hi w (List.mem_cons_self w ws))

theorem applyWrites_mem (init : List (Option (List Char))) (ws : List (Nat × List Char))
    (i : Nat) (t : List Char) (hlen : i < init.length)
    (hval : ∀ p ∈ ws, p.1 = i → p.2 = t) (hmem : i ∈ ws.map Prod.fst) :
    (applyWrites init ws)[i]? = some (some t) := by
  induction ws generalizing init with
  | nil => exact absurd hmem (List.not_mem_nil i)
  | cons w ws ih =>
    show (applyWrites (init.set w.1 (some w.2)) ws)[i]? = some (some t)
    by_cases hmem' : i ∈ ws.map Prod.fst
    · exact ih (init.set w.1 (some w.2)) (by rwa [List.length_set])
        (fun p hp => hval p (List.mem_cons_of_mem w hp)) hmem'
    · have hw : w.1 = i := by
        rcases List.mem_map.mp hmem with ⟨p, hp, hpi⟩
        rcases List.mem_cons.mp hp with rfl | hp'
        · exact hpi
        · exact absurd (by rw [← hpi]; exact List.mem_map_of_mem Prod.fst hp') hmem'
      rw [applyWrites_not_mem _ _ _
          (fun p hp hpi => hmem' (by rw [← hpi]; exact List.mem_map_of_mem Prod.fst hp)),
        hw, List.getElem?_set_self hlen, hval w (List.mem_cons_self w ws) hw]

theorem mem_writeSet_iff (mode : Mode) (chunks : List (List Char)) (outcome : Nat → Outcome)
    (i : Nat) (t : List Char) :
    (i, t) ∈ writeSet mode chunks outcome ↔
      i < chunks.length ∧ taskResult mode (chunks.getD i []) (outcome i) = some t := by
  unfold writeSet
  rw [List.mem_filterMap]
  constructor
  · rintro ⟨j, hj, hje⟩
    rcases hr : taskResult mode (chunks.getD j []) (outcome j) with _ | v
    · rw [hr] at hje; exact absurd hje (by simp [Option.map])
    · rw [hr] at hje
      simp only [Option.map_some', Option.some.injEq, Prod.mk.injEq] at hje
      obtain ⟨rfl, rfl⟩ := hje
      exact ⟨List.mem_range.mp hj, hr⟩
  · rintro ⟨hi, hr⟩
    exact ⟨i, List.mem_range.mpr hi, by rw [hr]; rfl⟩

theorem fst_mem_writeSet_iff (mode : Mode) (chunks : List (List Char)) (outcome : Nat → Outcome)
    (i : Nat) :
    i ∈ (writeSet mode chunks outcome).map Prod.fst ↔
      i < chunks.length ∧ taskResult mode (chunks.getD i []) (outcome i) ≠ none := by
  rw [List.mem_map]
  constructor
  · rintro ⟨⟨j, t⟩, hp, rfl⟩
    obtain ⟨hi, hr⟩ := (mem_writeSet_iff mode chunks outcome j t).mp hp
    exact ⟨hi, by rw [hr]; exact Option.some_ne_none t⟩
  · rintro ⟨hi, hne⟩
    rcases hr : taskResult mode (chunks.getD i []) (outcome i) with _ | t
    · exact absurd hr hne
    · exact ⟨(i, t), (mem_writeSet_iff mode chunks outcome i t).mpr ⟨hi, hr⟩, rfl⟩

/-- The single element read off the orchestrator's output list: position `i`
holds the value derived from chunk `i` and its outcome alone, whatever the
completion order. -/
theorem process_chunks_parallel_getElem (mode : Mode) (chunks : List (List Char))
    (outcome : Nat → Outcome) (ws : List (Nat × List Char))
    (hws : ws.Perm (writeSet mode chunks outcome))
    (i : Nat) (hi : i < chunks.length) :
    (process_chunks_parallel mode chunks outcome ws).getD i [] =
      (taskResult mode (chunks.getD i []) (outcome i)).getD (chunks.getD i []) := by
  have hlen : (applyWrites (List.replicate chunks.length none) ws).length = chunks.length := by
    rw [applyWrites_length, List.length_replicate]
  have hi' : i < (applyWrites (List.replicate chunks.length none) ws).length := by
    rw [hlen]; exact hi
  have hchunk : chunks.getD i [] = chunks[i] := List.getD_eq_getElem chunks [] hi
  have hzip : (process_chunks_parallel mode chunks outcome ws).getD i [] =
      ((applyWrites (List.replicate chunks.length none) ws)[i]).getD chunks[i] := by
    show (List.zipWith (fun r c => r.getD c)
      (applyWrites (List.replicate chunks.length none) ws) chunks).getD i [] = _
    rw [List.getD_eq_getElem _ _ (by rw [List.length_zipWith, hlen, Nat.min_self]; exact hi),
      List.getElem_zipWith]
  rcases hr : taskResult mode (chunks.getD i []) (outcome i) with _ | t
  · -- the task wrote nothing; the fallback loop supplies the original chunk
    have hnm : ∀ p ∈ ws, p.1 ≠ i := by
      intro p hp hpe
      have hp' : p ∈ writeSet mode chunks outcome := hws.mem_iff.mp hp
      rcases p with ⟨a, b⟩
      obtain ⟨_, hr'⟩ := (mem_writeSet_iff mode chunks outcome a b).mp hp'
      rw [show a = i from hpe, hr] at hr'
      exact Option.noConfusion hr'
    have hres : (applyWrites (List.replicate chunks.length none) ws)[i]? = some none := by
      rw [applyWrites_not_mem _ _ _ hnm, List.getElem?_replicate, if_pos hi]
    have hval : (applyWrites (List.replicate chunks.length none) ws)[i] = none := by
      have h2 := List.getElem?_eq_getElem hi'
      rw [hres] at h2
      exact (Option.some_inj.mp h2).symm
    rw [hzip, hval, hchunk]
  · have hval : ∀ p ∈ ws, p.1 = i → p.2 = t := by
      intro p hp hpe
      have hp' : p ∈ writeSet mode chunks outcome := hws.mem_iff.mp hp
      rcases p with ⟨a, b⟩
      obtain ⟨_, hr'⟩ := (mem_writeSet_iff mode chunks outcome a b).mp hp'
      cases hpe
      rw [hr] at hr'
      exact (Option.some_inj.mp hr').symm
    have hmem : i ∈ ws.map Prod.fst := by
      rw [(hws.map Prod.fst).mem_iff]
      exact (fst_mem_writeSet_iff mode chunks outcome i).mpr
        ⟨hi, by rw [hr]; exact Option.some_ne_none t⟩
    have hres : (applyWrites (List.replicate chunks.length none) ws)[i]? = some (some t) :=
      applyWrites_mem _ _ _ _ (by rwa [List.length_replicate]) hval hmem
    have hval' : (applyWrites (List.replicate chunks.length none) ws)[i] = some t := by
      have h2 := List.getElem?_eq_getElem hi'
      rw [hres] at h2
      exact (Option.some_inj.mp h2).symm
    rw [hzip, hval']
    rfl

theorem process_chunks_parallel_length (mode : Mode) (chunks : List (List Char))
    (outcome : Nat → Outcome) (ws : List (Nat × List Char)) :
    (process_chunks_parallel mode chunks outcome ws).length = chunks.length := by
  show (List.zipWith (fun r c => r.getD c)
    (applyWrites (List.replicate chunks.length none) ws) chunks).length = chunks.length
  rw [List.length_zipWith, applyWrites_length, List.length_replicate, Nat.min_self]

/-- **C1** (`process_chunks_parallel`, `src/processor.py` 440-475).  For every
chunk list, every assignment of per-ordinal outcomes, and every completion
order of the workers (any permutation of the index-tagged write set), the
orchestrator returns exactly one output per input chunk, and the output at
position `i` is derived from the chunk at position `i` alone: its cached
value, its transform result, the failure fallback, or (after a raised
exception) the original chunk. -/
theorem c1_order_preservation (mode : Mode) (chunks : List (List Char))
    (outcome : Nat → Outcome) (ws : List (Nat × List Char))
    (hws : ws.Perm (writeSet mode chunks outcome)) :
    (process_chunks_parallel mode chunks outcome ws).length = chunks.length ∧
    ∀ i, i < chunks.length →
      (process_chunks_parallel mode chunks outcome ws).getD i [] =
        (taskResult mode (chunks.getD i []) (outcome i)).getD (chunks.getD i []) :=
  ⟨process_chunks_parallel_length mode chunks outcome ws,
   fun i hi => process_chunks_parallel_getElem mode chunks outcome ws hws i hi⟩

theorem c1_witness :
    (process_chunks_parallel Mode.correction ["ab".data] (fun _ => Outcome.success "cd".data)
      (writeSet Mode.correction ["ab".data] (fun _ => Outcome.success "cd".data))).length = 1 ∧
    (process_chunks_parallel Mode.correction ["ab".data] (fun _ => Outcome.success "cd".data)
      (writeSet Mode.correction ["ab".data] (fun _ => Outcome.success "cd".data))).getD 0 []
      = "cd".data := by
  have h := c1_order_preservation Mode.correction ["ab".data]
    (fun _ => Outcome.success "cd".data) _ (List.Perm.refl _)
  exact ⟨h.1, by rw [h.2 0 (by decide)]; rfl⟩

/-! ## Claim C3: failure fallback -/

/-- The stage's output for a permanently failed chunk: `process_correction`
prefixes the failure marker, `process_footnotes` returns the chunk as is. -/
def failureFallback (mode : Mode) (chunk : List Char) : List Char :=
  match mode with
  | Mode.correction => AI_FAILURE_MARKER ++ '\n' :: '\n' :: chunk
  | Mode.footnotes => chunk

theorem taskResult_failure (mode : Mode) (chunk : List Char) :
    taskResult mode chunk Outcome.failure = some (failureFallback mode chunk) := by
  cases mode <;> rfl

theorem infix_joinPara {l : List Char} {L : List (List Char)} (h : l ∈ L) :
    l.IsInfix (joinPara L) := by
  induction L with
  | nil => cases h
  | cons p ps ih =>
    rcases List.mem_cons.mp h with rfl | h'
    · cases ps with
      | nil => exact List.infix_refl l
      | cons q qs =>
        exact ⟨[], '\n' :: '\n' :: joinPara (q :: qs), by simp [joinPara]⟩
    · cases ps with
      | nil => cases h'
      | cons q qs =>
        have hsuf : (joinPara (q :: qs)).IsSuffix (joinPara (p :: q :: qs)) :=
          ⟨p ++ ['\n', '\n'], by simp [joinPara]⟩
        exact (ih h').trans hsuf.isInfix

/-- **C3, counterexample.**  In the footnotes stage a permanently failed
chunk's output is the bare original chunk — `process_footnotes` returns
`(idx, chunk)` on failure — not the marker-prefixed text the claim requires
for every stage. -/
theorem c3_counterexample :
    process_chunks_parallel Mode.footnotes ["Oi".data] (fun _ => Outcome.failure)
      (writeSet Mode.footnotes ["Oi".data] (fun _ => Outcome.failure)) = ["Oi".data] ∧
    "Oi".data ≠ AI_FAILURE_MARKER ++ '\n' :: '\n' :: "Oi".data := by
  decide

/-- **C3, amended** (`process_correction` / `process_footnotes`,
`src/processor.py` 403-437).  For every chunk whose transform permanently
fails, the correction stage's output at that ordinal is the original chunk
text prefixed with the visible failure marker, while the footnotes stage's
output is the original chunk text unchanged; in both stages the original
chunk's text appears as a substring of the reassembled (`"\n\n"`-joined)
stage output — a failed transform never causes content to be dropped. -/
theorem c3_failure_fallback (mode : Mode) (chunks : List (List Char))
    (outcome : Nat → Outcome) (ws : List (Nat × List Char))
    (hws : ws.Perm (writeSet mode chunks outcome))
    (i : Nat) (hi : i < chunks.length) (hf : outcome i = Outcome.failure) :
    (process_chunks_parallel mode chunks outcome ws).getD i [] =
      failureFallback mode (chunks.getD i []) ∧
    (chunks.getD i []).IsInfix (joinPara (process_chunks_parallel mode chunks outcome ws)) := by
  have h := process_chunks_parallel_getElem mode chunks outcome ws hws i hi
  rw [hf] at h
  have hout : (process_chunks_parallel mode chunks outcome ws).getD i [] =
      failureFallback mode (chunks.getD i []) := by
    rw [h, taskResult_failure]
    rfl
  refine ⟨hout, ?_⟩
  have hlen : i < (process_chunks_parallel mode chunks outcome ws).length := by
    rw [process_chunks_parallel_length]; exact hi
  have hmem : (process_chunks_parallel mode chunks outcome ws).getD i [] ∈
      process_chunks_parallel mode chunks outcome ws := by
    rw [List.getD_eq_getElem _ _ hlen]
    exact List.getElem_mem hlen
  have hsub : (chunks.getD i []).IsInfix
      ((process_chunks_parallel mode chunks outcome ws).getD i []) := by
    rw [hout]
    cases mode
    · exact ⟨AI_FAILURE_MARKER ++ ['\n', '\n'], [], by simp [failureFallback]⟩
    · exact List.infix_refl _
  exact hsub.trans (infix_joinPara hmem)

theorem c3_witness :
    (process_chunks_parallel Mode.correction ["Oi".data] (fun _ => Outcome.failure)
      (writeSet Mode.correction ["Oi".data] (fun _ => Outcome.failure))).getD 0 [] =
      AI_FAILURE_MARKER ++ '\n' :: '\n' :: "Oi".data ∧
    ("Oi".data).IsInfix (joinPara (process_chunks_parallel Mode.correction ["Oi".data]
      (fun _ => Outcome.failure) (writeSet Mode.correction ["Oi".data] (fun _ => Outcome.failure)))) := by
  have h := c3_failure_fallback Mode.correction ["Oi".data] (fun _ => Outcome.failure)
    _ (List.Perm.refl _) 0 (by decide) rfl
  exact ⟨h.1, h.2⟩

/-! ## Claim C4: `extract_footnotes` (src/processor.py, lines 481-499)

The regex `\[NOTA:([^|]+)\|([^\]]+)\]` is embedded as `matchNota`: a match at
a position is `"[NOTA:"`, a non-empty run of characters other than `'|'`
(group 1), `'|'`, a non-empty run of characters other than `']'` (group 2),
then `']'`.  `re.sub` scans left to right, non-overlapping, and does not
rescan replacements; the replacement function appends
`{number, term.strip(), explanation.strip()}` to `footnotes` and substitutes
`f"[{counter}]"`, incrementing the counter. -/

def matchNota : List Char → Option (List Char × List Char × List Char)
  | '[' :: 'N' :: 'O' :: 'T' :: 'A' :: ':' :: rest =>
    match rest.takeWhile (fun c => c ≠ '|'), rest.dropWhile (fun c => c ≠ '|') with
    | t :: ts, '|' :: rest2 =>
      (match rest2.takeWhile (fun c => c ≠ ']'), rest2.dropWhile (fun c => c ≠ ']') with
      | e :: es, ']' :: rest3 => some (t :: ts, e :: es, rest3)
      | _, _ => none)
    | _, _ => none
  | _ => none

theorem matchNota_eq {l t e r : List Char} (h : matchNota l = some (t, e, r)) :
    l = '[' :: 'N' :: 'O' :: 'T' :: 'A' :: ':' :: (t ++ '|' :: e ++ ']' :: r) ∧
    r.length + 8 < l.length := by
  unfold matchNota at h
  split at h
  · rename_i rest
    split at h
    · rename_i t' ts rest2 htake hdrop
      split at h
      · rename_i a b e' es htake2 hdrop2
        rcases Option.some_inj.mp h with ⟨rfl, rfl, rfl⟩
        have hrest : rest = (t' :: ts) ++ '|' :: rest2 := by
          rw [← htake, ← hdrop, List.takeWhile_append_dropWhile]
        have hrest2 : rest2 = (b :: e') ++ ']' :: r := by
          rw [← htake2, ← hdrop2, List.takeWhile_append_dropWhile]
        constructor
        · rw [hrest, hrest2]
          simp
        · rw [hrest, hrest2]
          simp only [List.length_cons, List.length_append]
          omega
      · exact Option.noConfusion h
    · exact Option.noConfusion h
  · exact Option.noConfusion h

structure Footnote where
  number : Nat
  term : List Char
  explanation : List Char
deriving DecidableEq

/-- The replacement text `f"[{counter}]"`. -/
def numToken (k : Nat) : List Char := '[' :: (Nat.repr k).data ++ [']']

/-- The `re.sub` scan of `extract_footnotes`, carrying the counter: returns
(clean text, footnote list). -/
def extractAux : Nat → List Char → List Char × List Footnote
  | _, [] => ([], [])
  | k, c :: rest =>
    match hm : matchNota (c :: rest) with
    | some (t, e, r) =>
      let s := extractAux (k + 1) r
      (numToken k ++ s.1, ⟨k, pyStrip t, pyStrip e⟩ :: s.2)
    | none =>
      let s := extractAux k rest
      (c :: s.1, s.2)
termination_by _ l => l.length
decreasing_by
  · have := (matchNota_eq hm).2
    simp only [List.length_cons] at *
    omega
  · simp

/-- `extract_footnotes(text)` from `src/processor.py`: the counter starts
at 1. -/
def extract_footnotes (text : List Char) : List Char × List Footnote :=
  extractAux 1 text

/-- The same leftmost scan, recording the decomposition of the text instead:
the gap before the first match, then for each match its two groups and the
gap that follows it. -/
def notaDecomp : List Char → List Char × List ((List Char × List Char) × List Char)
  | [] => ([], [])
  | c :: rest =>
    match hm : matchNota (c :: rest) with
    | some (t, e, r) =>
      let s := notaDecomp r
      ([], ((t, e), s.1) :: s.2)
    | none =>
      let s := notaDecomp rest
      (c :: s.1, s.2)
termination_by l => l.length
decreasing_by
  · have := (matchNota_eq hm).2
    simp only [List.length_cons] at *
    omega
  · simp

/-- The raw text a match consumed. -/
def rawNota (m : List Char × List Char) : List Char :=
  '[' :: 'N' :: 'O' :: 'T' :: 'A' :: ':' :: (m.1 ++ '|' :: m.2 ++ [']'])

def notaJoinTail : List ((List Char × List Char) × List Char) → List Char
  | [] => []
  | (m, g) :: ms => rawNota m ++ g ++ notaJoinTail ms

def notaJoin (d : List Char × List ((List Char × List Char) × List Char)) : List Char :=
  d.1 ++ notaJoinTail d.2

/-- Clean text rebuilt from the decomposition: the k-th match (1-based `k`
here arbitrary start) is replaced by `[k]`. -/
def cleanTail (k : Nat) : List ((List Char × List Char) × List Char) → List Char
  | [] => []
  | (_, g) :: ms => numToken k ++ g ++ cleanTail (k + 1) ms

/-- Footnote list rebuilt from the decomposition, numbered from `k`. -/
def fnsTail (k : Nat) : List ((List Char × List Char) × List Char) → List Footnote
  | [] => []
  | (m, _) :: ms => ⟨k, pyStrip m.1, pyStrip m.2⟩ :: fnsTail (k + 1) ms

/-- The decomposition is faithful: gaps and raw matches concatenate back to
the input. -/
theorem notaJoin_notaDecomp : ∀ (n : Nat) (l : List Char), l.length ≤ n →
    notaJoin (notaDecomp l) = l := by
  intro n
  induction n with
  | zero =>
    intro l hl
    rw [List.length_eq_zero.mp (Nat.le_zero.mp hl), notaDecomp]
    rfl
  | succ n ih =>
    intro l hl
    match l with
    | [] => rw [notaDecomp]; rfl
    | c :: rest =>
      rcases hm : matchNota (c :: rest) with _ | ⟨t, e, r⟩
      · rw [show notaDecomp (c :: rest) = (c :: (notaDecomp rest).1, (notaDecomp rest).2) by
          rw [notaDecomp]; rw [hm]]
        have := ih rest (by simpa using Nat.lt_succ_iff.mp (Nat.lt_of_lt_of_le (by simp) hl))
        unfold notaJoin at this ⊢
        simpa using this
      · obtain ⟨heq, hlen⟩ := matchNota_eq hm
        rw [show notaDecomp (c :: rest) =
            ([], ((t, e), (notaDecomp r).1) :: (notaDecomp r).2) by
          rw [notaDecomp]; rw [hm]]
        have hr : r.length ≤ n := by
          simp only [List.length_cons] at hl hlen
          omega
        have := ih r hr
        unfold notaJoin at this ⊢
        rw [List.nil_append, notaJoinTail, heq]
        rw [show rawNota (t, e) = '[' :: 'N' :: 'O' :: 'T' :: 'A' :: ':' :: (t ++ '|' :: e ++ [']']) from rfl]
        simp [this]

/-- The scan of `extract_footnotes` computes exactly the decomposition-based
renumbering: gaps are kept, the `j`-th match (counting from the starting
counter `k`) is replaced by `[k+j-1]`, and the footnotes are the stripped
groups in document order, numbered consecutively from `k`. -/
theorem extractAux_eq_decomp : ∀ (n : Nat) (l : List Char), l.length ≤ n → ∀ (k : Nat),
    extractAux k l = ((notaDecomp l).1 ++ cleanTail k (notaDecomp l).2,
      fnsTail k (notaDecomp l).2) := by
  intro n
  induction n with
  | zero =>
    intro l hl k
    rw [List.length_eq_zero.mp (Nat.le_zero.mp hl), extractAux, notaDecomp]
    rfl
  | succ n ih =>
    intro l hl k
    match l with
    | [] => rw [extractAux, notaDecomp]; rfl
    | c :: rest =>
      rcases hm : matchNota (c :: rest) with _ | ⟨t, e, r⟩
      · rw [show extractAux k (c :: rest) =
            (c :: (extractAux k rest).1, (extractAux k rest).2) by
          rw [extractAux]; rw [hm],
          show notaDecomp (c :: rest) = (c :: (notaDecomp rest).1, (notaDecomp rest).2) by
          rw [notaDecomp]; rw [hm]]
        have hrest : rest.length ≤ n := by
          simp only [List.length_cons] at hl
          omega
        rw [ih rest hrest k]
        simp
      · obtain ⟨_, hlen⟩ := matchNota_eq hm
        rw [show extractAux k (c :: rest) =
            (numToken k ++ (extractAux (k + 1) r).1,
              ⟨k, pyStrip t, pyStrip e⟩ :: (extractAux (k + 1) r).2) by
          rw [extractAux]; rw [hm],
          show notaDecomp (c :: rest) =
            ([], ((t, e), (notaDecomp r).1) :: (notaDecomp r).2) by
          rw [notaDecomp]; rw [hm]]
        have hr : r.length ≤ n := by
          simp only [List.length_cons] at hl hlen
          omega
        rw [ih r hr (k + 1)]
        simp [cleanTail, fnsTail]

theorem fnsTail_numbers (ms : List ((List Char × List Char) × List Char)) :
    ∀ k, (fnsTail k ms).map Footnote.number = List.range' k ms.length := by
  induction ms with
  | nil => intro k; rfl
  | cons m ms ih =>
    intro k
    rcases m with ⟨m, g⟩
    rw [show fnsTail k ((m, g) :: ms) = ⟨k, pyStrip m.1, pyStrip m.2⟩ :: fnsTail (k + 1) ms from rfl,
      List.map_cons, ih (k + 1), List.length_cons, List.range'_succ]

theorem fnsTail_length (ms : List ((List Char × List Char) × List Char)) :
    ∀ k, (fnsTail k ms).length = ms.length := by
  induction ms with
  | nil => intro k; rfl
  | cons m ms ih =>
    intro k
    rcases m with ⟨m, g⟩
    rw [show fnsTail k ((m, g) :: ms) = ⟨k, pyStrip m.1, pyStrip m.2⟩ :: fnsTail (k + 1) ms from rfl,
      List.length_cons, ih (k + 1), List.length_cons]

theorem fnsTail_groups (ms : List ((List Char × List Char) × List Char)) :
    ∀ k, (fnsTail k ms).map (fun f => (f.term, f.explanation)) =
      ms.map (fun p => (pyStrip p.1.1, pyStrip p.1.2)) := by
  induction ms with
  | nil => intro k; rfl
  | cons m ms ih =>
    intro k
    rcases m with ⟨m, g⟩
    rw [show fnsTail k ((m, g) :: ms) = ⟨k, pyStrip m.1, pyStrip m.2⟩ :: fnsTail (k + 1) ms from rfl,
      List.map_cons, ih (k + 1), List.map_cons]

/-- **C4** (`extract_footnotes`, `src/processor.py` 481-499).  The marker
scan is single-pass, left-to-right and deterministic.  Writing the input as
the decomposition `gap₀ ++ raw₁ ++ gap₁ ++ … ++ rawN ++ gapN` into its `N`
leftmost valid marker pairs (first conjunct: the decomposition reconstructs
the input), the clean text is `gap₀ ++ "[1]" ++ gap₁ ++ … ++ "[N]" ++ gapN`
— the k-th valid pair is replaced by `[k]` — and the footnote list has
exactly `N` entries, in document order (their term/explanation groups are
the matches' stripped groups, in order), numbered `1..N`: the counter starts
at 1 and is strictly increasing. -/
theorem c4_footnote_renumbering (text : List Char) :
    notaJoin (notaDecomp text) = text ∧
    extract_footnotes text =
      ((notaDecomp text).1 ++ cleanTail 1 (notaDecomp text).2,
        fnsTail 1 (notaDecomp text).2) ∧
    (extract_footnotes text).2.length = (notaDecomp text).2.length ∧
    (extract_footnotes text).2.map Footnote.number =
      List.range' 1 (notaDecomp text).2.length ∧
    (extract_footnotes text).2.map (fun f => (f.term, f.explanation)) =
      (notaDecomp text).2.map (fun p => (pyStrip p.1.1, pyStrip p.1.2)) := by
  have hd := extractAux_eq_decomp text.length text (Nat.le_refl _) 1
  refine ⟨notaJoin_notaDecomp text.length text (Nat.le_refl _), hd, ?_, ?_, ?_⟩
  · rw [show (extract_footnotes text).2 = fnsTail 1 (notaDecomp text).2 by
      rw [extract_footnotes, hd]]
    exact fnsTail_length _ 1
  · rw [show (extract_footnotes text).2 = fnsTail 1 (notaDecomp text).2 by
      rw [extract_footnotes, hd]]
    exact fnsTail_numbers _ 1
  · rw [show (extract_footnotes text).2 = fnsTail 1 (notaDecomp text).2 by
      rw [extract_footnotes, hd]]
    exact fnsTail_groups _ 1

/-! ## Claim C6: the `[NOTA_...][CONTEUDO_NOTA:...]` substitution
(`run_final_txt_generation`, correcaoKDP.py, lines 769-826)

The pattern
`(\[NOTA_(?:IDIOMA|CITACAO|NOME|TERMO):[^\]]+?\])\s*(\[CONTEUDO_NOTA:([^\]]*?)\])`
with `re.IGNORECASE` is embedded as `matchKdp`.  The literal parts match
case-insensitively (ASCII); the four kind alternatives start with distinct
letters, so at most one can apply at a position.  A reference tag needs a
non-empty `[^\]]+?` body, the content group `[^\]]*?` may be empty; `\s*` is
the maximal whitespace run between the two tags. -/

/-- Case-insensitive literal match; returns the consumed characters in their
original case, and the rest. -/
def ciPrefix : List Char → List Char → Option (List Char × List Char)
  | [], l => some ([], l)
  | _ :: _, [] => none
  | p :: ps, c :: cs =>
    if p.toLower = c.toLower then
      match ciPrefix ps cs with
      | some (con, rest) => some (c :: con, rest)
      | none => none
    else none

/-- First alternative that matches (they are mutually exclusive here). -/
def ciAlt : List (List Char) → List Char → Option (List Char × List Char)
  | [], _ => none
  | p :: ps, l =>
    match ciPrefix p l with
    | some r => some r
    | none => ciAlt ps l

def kdpKinds : List (List Char) := ["IDIOMA".data, "CITACAO".data, "NOME".data, "TERMO".data]

def expectChar (c : Char) : List Char → Option (List Char)
  | x :: rest => if x = c then some rest else none
  | [] => none

structure KdpMatch where
  tag1 : List Char
  ws : List Char
  tag2 : List Char
  content : List Char
deriving DecidableEq

def matchKdp (l : List Char) : Option (KdpMatch × List Char) :=
  (expectChar '[' l).bind fun r0 =>
  (ciPrefix "NOTA_".data r0).bind fun p1 =>
  (ciAlt kdpKinds p1.2).bind fun p2 =>
  (expectChar ':' p2.2).bind fun r3 =>
  let ref := r3.takeWhile (fun c => c ≠ ']')
  if ref.isEmpty then none else
  (expectChar ']' (r3.dropWhile (fun c => c ≠ ']'))).bind fun r4 =>
  let wsp := r4.takeWhile isPySpace
  (expectChar '[' (r4.dropWhile isPySpace)).bind fun r5 =>
  (ciPrefix "CONTEUDO_NOTA".data r5).bind fun p6 =>
  (expectChar ':' p6.2).bind fun r7 =>
  let content := r7.takeWhile (fun c => c ≠ ']')
  (expectChar ']' (r7.dropWhile (fun c => c ≠ ']'))).bind fun r8 =>
  some ({ tag1 := '[' :: p1.1 ++ p2.1 ++ ':' :: ref ++ [']'],
          ws := wsp,
          tag2 := '[' :: p6.1 ++ ':' :: content ++ [']'],
          content := content }, r8)

theorem expectChar_eq {c : Char} {l r : List Char} (h : expectChar c l = some r) :
    l = c :: r := by
  match l with
  | [] => exact Option.noConfusion h
  | x :: rest =>
    simp only [expectChar] at h
    by_cases hx : x = c
    · rw [if_pos hx] at h
      rw [hx, Option.some_inj.mp h]
    · rw [if_neg hx] at h
      exact Option.noConfusion h

theorem ciPrefix_eq : ∀ {p l : List Char} {con rest : List Char},
    ciPrefix p l = some (con, rest) → l = con ++ rest := by
  intro p
  induction p with
  | nil =>
    intro l con rest h
    unfold ciPrefix at h
    rcases Option.some_inj.mp h with ⟨rfl, rfl⟩
    rfl
  | cons pc ps ih =>
    intro l con rest h
    match l with
    | [] => exact Option.noConfusion h
    | c :: cs =>
      unfold ciPrefix at h
      by_cases hc : pc.toLower = c.toLower
      · rw [if_pos hc] at h
        rcases hrec : ciPrefix ps cs with _ | ⟨con', rest'⟩
        · rw [hrec] at h; exact Option.noConfusion h
        · rw [hrec] at h
          rcases Option.some_inj.mp h with ⟨rfl, rfl⟩
          rw [List.cons_append, ← ih hrec]
      · rw [if_neg hc] at h
        exact Option.noConfusion h

theorem ciAlt_eq : ∀ {ps : List (List Char)} {l con rest : List Char},
    ciAlt ps l = some (con, rest) → l = con ++ rest := by
  intro ps
  induction ps with
  | nil => intro l con rest h; exact Option.noConfusion h
  | cons p ps ih =>
    intro l con rest h
    unfold ciAlt at h
    rcases hp : ciPrefix p l with _ | r
    · rw [hp] at h
      exact ih h
    · rw [hp] at h
      rcases r with ⟨con', rest'⟩
      rcases Option.some_inj.mp h with ⟨rfl, rfl⟩
      exact ciPrefix_eq hp

/-- Reconstruction: a match splits the text into the two tags, the
whitespace between them, and the rest. -/
theorem matchKdp_eq {l : List Char} {m : KdpMatch} {r : List Char}
    (h : matchKdp l = some (m, r)) :
    l = m.tag1 ++ m.ws ++ m.tag2 ++ r ∧ r.length < l.length := by
  unfold matchKdp at h
  rcases h0 : expectChar '[' l with _ | r0
  · rw [h0] at h; exact Option.noConfusion h
  rw [h0] at h
  simp only [Option.bind_some, Option.some_bind] at h
  rcases h1 : ciPrefix "NOTA_".data r0 with _ | p1
  · rw [h1] at h; exact Option.noConfusion h
  rw [h1] at h
  simp only [Option.some_bind] at h
  rcases h2 : ciAlt kdpKinds p1.2 with _ | p2
  · rw [h2] at h; exact Option.noConfusion h
  rw [h2] at h
  simp only [Option.some_bind] at h
  rcases h3 : expectChar ':' p2.2 with _ | r3
  · rw [h3] at h; exact Option.noConfusion h
  rw [h3] at h
  simp only [Option.some_bind] at h
  by_cases href : (r3.takeWhile (fun c => c ≠ ']')).isEmpty
  · rw [if_pos href] at h; exact Option.noConfusion h
  rw [if_neg href] at h
  rcases h4 : expectChar ']' (r3.dropWhile (fun c => c ≠ ']')) with _ | r4
  · rw [h4] at h; exact Option.noConfusion h
  rw [h4] at h
  simp only [Option.some_bind] at h
  rcases h5 : expectChar '[' (r4.dropWhile isPySpace) with _ | r5
  · rw [h5] at h; exact Option.noConfusion h
  rw [h5] at h
  simp only [Option.some_bind] at h
  rcases h6 : ciPrefix "CONTEUDO_NOTA".data r5 with _ | p6
  · rw [h6] at h; exact Option.noConfusion h
  rw [h6] at h
  simp only [Option.some_bind] at h
  rcases h7 : expectChar ':' p6.2 with _ | r7
  · rw [h7] at h; exact Option.noConfusion h
  rw [h7] at h
  simp only [Option.some_bind] at h
  rcases h8 : expectChar ']' (r7.dropWhile (fun c => c ≠ ']')) with _ | r8
  · rw [h8] at h; exact Option.noConfusion h
  rw [h8] at h
  simp only [Option.some_bind] at h
  rcases Option.some_inj.mp h with ⟨rfl, rfl⟩
  have e0 : l = '[' :: r0 := expectChar_eq h0
  have e1 : r0 = p1.1 ++ p1.2 := ciPrefix_eq (by rw [← h1])
  have e2 : p1.2 = p2.1 ++ p2.2 := ciAlt_eq (by rw [← h2])
  have e3 : p2.2 = ':' :: r3 := expectChar_eq h3
  have e4 : r3 = r3.takeWhile (fun c => c ≠ ']') ++ ']' :: r4 := by
    rw [← expectChar_eq h4, List.takeWhile_append_dropWhile]
  have e5 : r4 = r4.takeWhile isPySpace ++ '[' :: r5 := by
    rw [← expectChar_eq h5, List.takeWhile_append_dropWhile]
  have e6 : r5 = p6.1 ++ p6.2 := ciPrefix_eq (by rw [← h6])
  have e7 : p6.2 = ':' :: r7 := expectChar_eq h7
  have e8 : r7 = r7.takeWhile (fun c => c ≠ ']') ++ ']' :: r := by
    rw [← expectChar_eq h8, List.takeWhile_append_dropWhile]
  constructor
  · rw [e0, e1, e2, e3]
    conv_lhs => rw [e4, e5, e6, e7]
    conv_lhs => rw [e8]
    simp
  · have : l.length = r.length + (r7.takeWhile (fun c => c ≠ ']')).length +
        (p6.1.length + 2) + ((r4.takeWhile isPySpace).length + 1) +
        ((r3.takeWhile (fun c => c ≠ ']')).length + 1) + (p2.1.length + 1) +
        (p1.1.length + 1) := by
      rw [e0, e1, e2, e3]
      conv_lhs => rw [e4, e5, e6, e7]
      conv_lhs => rw [e8]
      simp only [List.length_cons, List.length_append]
      omega
    omega

/-- The `re.sub` scan of `run_final_txt_generation` with its
`replace_marker_and_collect_note` callback: carries the counter and the
collected notes; an empty or whitespace-only content group produces the
replacement `""` (both tags removed), appends no note, and leaves the
counter unchanged; otherwise the pair is replaced by `[counter]`,
`f"{counter}. {content}"` is appended, and the counter is incremented. -/
def kdpSubAux : Nat → List (List Char) → List Char → List Char × Nat × List (List Char)
  | k, notes, [] => ([], k, notes)
  | k, notes, c :: rest =>
    match hm : matchKdp (c :: rest) with
    | some (m, r) =>
      if (pyStrip m.content).isEmpty then
        kdpSubAux k notes r
      else
        let s := kdpSubAux (k + 1) (notes ++ [(Nat.repr k).data ++ '.' :: ' ' :: pyStrip m.content]) r
        (numToken k ++ s.1, s.2)
    | none =>
      let s := kdpSubAux k notes rest
      (c :: s.1, s.2)
termination_by _ _ l => l.length
decreasing_by
  · have := (matchKdp_eq hm).2
    simp only [List.length_cons] at *
    omega
  · have := (matchKdp_eq hm).2
    simp only [List.length_cons] at *
    omega
  · simp

/-- Step 3 of `correcaoKDP.py` on the marked text: the final numbered text,
the final counter, and the collected notes (in order). -/
def run_final_txt (marked : List Char) : List Char × Nat × List (List Char) :=
  kdpSubAux 1 [] marked

/-- The same leftmost scan recording the decomposition: gap before the first
match, then each match with the gap that follows it. -/
def kdpDecomp : List Char → List Char × List (KdpMatch × List Char)
  | [] => ([], [])
  | c :: rest =>
    match hm : matchKdp (c :: rest) with
    | some (m, r) =>
      let s := kdpDecomp r
      ([], (m, s.1) :: s.2)
    | none =>
      let s := kdpDecomp rest
      (c :: s.1, s.2)
termination_by l => l.length
decreasing_by
  · have := (matchKdp_eq hm).2
    simp only [List.length_cons] at *
    omega
  · simp

def kdpRaw (m : KdpMatch) : List Char := m.tag1 ++ m.ws ++ m.tag2

def kdpJoinTail : List (KdpMatch × List Char) → List Char
  | [] => []
  | (m, g) :: ms => kdpRaw m ++ g ++ kdpJoinTail ms

def kdpJoin (d : List Char × List (KdpMatch × List Char)) : List Char :=
  d.1 ++ kdpJoinTail d.2

/-- Expected clean text: an empty-content pair vanishes entirely (neither
tag survives, no number is used); a non-empty pair becomes `[k]`. -/
def kdpCleanTail (k : Nat) : List (KdpMatch × List Char) → List Char
  | [] => []
  | (m, g) :: ms =>
    if (pyStrip m.content).isEmpty then g ++ kdpCleanTail k ms
    else numToken k ++ g ++ kdpCleanTail (k + 1) ms

/-- Expected notes: only non-empty-content pairs contribute, numbered
consecutively. -/
def kdpNotesTail (k : Nat) : List (KdpMatch × List Char) → List (List Char)
  | [] => []
  | (m, _) :: ms =>
    if (pyStrip m.content).isEmpty then kdpNotesTail k ms
    else ((Nat.repr k).data ++ '.' :: ' ' :: pyStrip m.content) :: kdpNotesTail (k + 1) ms

/-- The number of non-empty-content pairs. -/
def kdpWeight (ms : List (KdpMatch × List Char)) : Nat :=
  ms.countP (fun m => !(pyStrip m.1.content).isEmpty)

theorem kdpJoin_kdpDecomp : ∀ (n : Nat) (l : List Char), l.length ≤ n →
    kdpJoin (kdpDecomp l) = l := by
  intro n
  induction n with
  | zero =>
    intro l hl
    rw [List.length_eq_zero.mp (Nat.le_zero.mp hl), kdpDecomp]
    rfl
  | succ n ih =>
    intro l hl
    match l with
    | [] => rw [kdpDecomp]; rfl
    | c :: rest =>
      rcases hm : matchKdp (c :: rest) with _ | ⟨m, r⟩
      · rw [show kdpDecomp (c :: rest) = (c :: (kdpDecomp rest).1, (kdpDecomp rest).2) by
          rw [kdpDecomp]; rw [hm]]
        have hrest : rest.length ≤ n := by
          simp only [List.length_cons] at hl
          omega
        have := ih rest hrest
        unfold kdpJoin at this ⊢
        simpa using this
      · obtain ⟨heq, hlen⟩ := matchKdp_eq hm
        rw [show kdpDecomp (c :: rest) = ([], (m, (kdpDecomp r).1) :: (kdpDecomp r).2) by
          rw [kdpDecomp]; rw [hm]]
        have hr : r.length ≤ n := by
          simp only [List.length_cons] at hl hlen
          omega
        have := ih r hr
        unfold kdpJoin at this ⊢
        rw [List.nil_append, kdpJoinTail, heq, kdpRaw]
        simp [this]

theorem kdpSubAux_eq_decomp : ∀ (n : Nat) (l : List Char), l.length ≤ n →
    ∀ (k : Nat) (notes : List (List Char)),
    kdpSubAux k notes l = ((kdpDecomp l).1 ++ kdpCleanTail k (kdpDecomp l).2,
      k + kdpWeight (kdpDecomp l).2, notes ++ kdpNotesTail k (kdpDecomp l).2) := by
  intro n
  induction n with
  | zero =>
    intro l hl k notes
    rw [List.length_eq_zero.mp (Nat.le_zero.mp hl), kdpSubAux, kdpDecomp]
    simp [kdpCleanTail, kdpNotesTail, kdpWeight]
  | succ n ih =>
    intro l hl k notes
    match l with
    | [] =>
      rw [kdpSubAux, kdpDecomp]
      simp [kdpCleanTail, kdpNotesTail, kdpWeight]
    | c :: rest =>
      rcases hm : matchKdp (c :: rest) with _ | ⟨m, r⟩
      · rw [show kdpSubAux k notes (c :: rest) =
            (c :: (kdpSubAux k notes rest).1, (kdpSubAux k notes rest).2) by
          rw [kdpSubAux]; rw [hm],
          show kdpDecomp (c :: rest) = (c :: (kdpDecomp rest).1, (kdpDecomp rest).2) by
          rw [kdpDecomp]; rw [hm]]
        have hrest : rest.length ≤ n := by
          simp only [List.length_cons] at hl
          omega
        rw [ih rest hrest k notes]
        simp
      · obtain ⟨_, hlen⟩ := matchKdp_eq hm
        have hr : r.length ≤ n := by
          simp only [List.length_cons] at hl hlen
          omega
        rw [show kdpDecomp (c :: rest) = ([], (m, (kdpDecomp r).1) :: (kdpDecomp r).2) by
          rw [kdpDecomp]; rw [hm]]
        by_cases hc : (pyStrip m.content).isEmpty
        · rw [show kdpSubAux k notes (c :: rest) = kdpSubAux k notes r by
            rw [kdpSubAux]; rw [hm]; simp [hc]]
          rw [ih r hr k notes]
          rw [show kdpCleanTail k ((m, (kdpDecomp r).1) :: (kdpDecomp r).2) =
              (kdpDecomp r).1 ++ kdpCleanTail k (kdpDecomp r).2 by
            rw [kdpCleanTail]; rw [if_pos hc],
            show kdpNotesTail k ((m, (kdpDecomp r).1) :: (kdpDecomp r).2) =
              kdpNotesTail k (kdpDecomp r).2 by
            rw [kdpNotesTail]; rw [if_pos hc]]
          rw [show kdpWeight ((m, (kdpDecomp r).1) :: (kdpDecomp r).2) =
              kdpWeight (kdpDecomp r).2 by
            unfold kdpWeight
            rw [List.countP_cons]
            simp [hc]]
          simp
        · rw [show kdpSubAux k notes (c :: rest) =
              (numToken k ++ (kdpSubAux (k + 1)
                  (notes ++ [(Nat.repr k).data ++ '.' :: ' ' :: pyStrip m.content]) r).1,
                (kdpSubAux (k + 1)
                  (notes ++ [(Nat.repr k).data ++ '.' :: ' ' :: pyStrip m.content]) r).2) by
            rw [kdpSubAux]; rw [hm]; simp [hc]]
          rw [ih r hr (k + 1) (notes ++ [(Nat.repr k).data ++ '.' :: ' ' :: pyStrip m.content])]
          rw [show kdpCleanTail k ((m, (kdpDecomp r).1) :: (kdpDecomp r).2) =
              numToken k ++ (kdpDecomp r).1 ++ kdpCleanTail (k + 1) (kdpDecomp r).2 by
            rw [kdpCleanTail]; rw [if_neg hc],
            show kdpNotesTail k ((m, (kdpDecomp r).1) :: (kdpDecomp r).2) =
              ((Nat.repr k).data ++ '.' :: ' ' :: pyStrip m.content) :: kdpNotesTail (k + 1) (kdpDecomp r).2 by
            rw [kdpNotesTail]; rw [if_neg hc]]
          rw [show kdpWeight ((m, (kdpDecomp r).1) :: (kdpDecomp r).2) =
              kdpWeight (kdpDecomp r).2 + 1 by
            unfold kdpWeight
            rw [List.countP_cons]
            simp [hc]]
          simp only [List.nil_append, List.append_assoc, Prod.mk.injEq]
          refine ⟨trivial, by omega, by simp⟩

theorem kdpNotesTail_length (ms : List (KdpMatch × List Char)) :
    ∀ k, (kdpNotesTail k ms).length = kdpWeight ms := by
  induction ms with
  | nil => intro k; rfl
  | cons m ms ih =>
    intro k
    rcases m with ⟨m, g⟩
    by_cases hc : (pyStrip m.content).isEmpty
    · rw [show kdpNotesTail k ((m, g) :: ms) = kdpNotesTail k ms by
        rw [kdpNotesTail]; rw [if_pos hc],
        show kdpWeight ((m, g) :: ms) = kdpWeight ms by
        unfold kdpWeight; rw [List.countP_cons]; simp [hc]]
      exact ih k
    · rw [show kdpNotesTail k ((m, g) :: ms) =
          ((Nat.repr k).data ++ '.' :: ' ' :: pyStrip m.content) :: kdpNotesTail (k + 1) ms by
        rw [kdpNotesTail]; rw [if_neg hc],
        show kdpWeight ((m, g) :: ms) = kdpWeight ms + 1 by
        unfold kdpWeight; rw [List.countP_cons]; simp [hc]]
      rw [List.length_cons, ih (k + 1)]

/-- **C6** (`replace_marker_and_collect_note` inside
`run_final_txt_generation`, correcaoKDP.py 769-826).  Writing the marked
text as its decomposition into leftmost `[NOTA_...][CONTEUDO_NOTA:...]`
pairs and gaps (first conjunct: the decomposition reconstructs the input),
the substitution pass turns every pair whose content is empty or
whitespace-only into nothing — both tags are removed from the clean text, no
note is emitted for it, and the counter is not incremented — while every
other pair becomes `[k]` with `k` the 1-based index among the non-empty
pairs; the final counter is `1 +` the number of non-empty pairs, and the
note list length equals that number. -/
theorem c6_empty_content_pairs (text : List Char) :
    kdpJoin (kdpDecomp text) = text ∧
    run_final_txt text =
      ((kdpDecomp text).1 ++ kdpCleanTail 1 (kdpDecomp text).2,
        1 + kdpWeight (kdpDecomp text).2,
        kdpNotesTail 1 (kdpDecomp text).2) ∧
    (run_final_txt text).2.2.length = kdpWeight (kdpDecomp text).2 := by
  have hd := kdpSubAux_eq_decomp text.length text (Nat.le_refl _) 1 []
  rw [List.nil_append] at hd
  refine ⟨kdpJoin_kdpDecomp text.length text (Nat.le_refl _), hd, ?_⟩
  rw [show (run_final_txt text).2.2 = kdpNotesTail 1 (kdpDecomp text).2 by
    rw [run_final_txt, hd]]
  exact kdpNotesTail_length _ 1

/-! ## Claim C7: `_call_gemini_api` (correcaoKDP.py, lines 274-374)

One external call per loop iteration, `max_retries = 5`,
`base_wait_time = 5`; a blocked prompt returns `None` immediately; extracted
non-empty text returns success; empty text, a candidate-less response, or an
exception fall through to the retry path; a quota/rate-limit exception
raises the base wait to `max(15, base)` for subsequent attempts.  After the
last attempt fails the function returns `None` (never an exception).  The
embedding also returns the trace of the base-wait value in effect at each
performed call. -/

inductive ApiAttempt
  | blocked
  | noCandidates
  | text (s : List Char)
  | errQuota
  | errOther
deriving DecidableEq

def isApiSuccess : ApiAttempt → Bool
  | .text s => !s.isEmpty
  | _ => false

def callGeminiLoop (resp : Nat → ApiAttempt) : Nat → Nat → Nat → Option (List Char) × List Nat
  | 0, _, _ => (none, [])
  | fuel + 1, attempt, base =>
    match resp attempt with
    | .blocked => (none, [base])
    | .text s =>
      if s.isEmpty then
        let r := callGeminiLoop resp fuel (attempt + 1) base
        (r.1, base :: r.2)
      else (some s, [base])
    | .noCandidates =>
      let r := callGeminiLoop resp fuel (attempt + 1) base
      (r.1, base :: r.2)
    | .errQuota =>
      let r := callGeminiLoop resp fuel (attempt + 1) (max 15 base)
      (r.1, base :: r.2)
    | .errOther =>
      let r := callGeminiLoop resp fuel (attempt + 1) base
      (r.1, base :: r.2)

def call_gemini_api (resp : Nat → ApiAttempt) : Option (List Char) × List Nat :=
  callGeminiLoop resp 5 0 5

theorem callGeminiLoop_calls_le (resp : Nat → ApiAttempt) :
    ∀ fuel attempt base, (callGeminiLoop resp fuel attempt base).2.length ≤ fuel := by
  intro fuel
  induction fuel with
  | zero => intro attempt base; exact Nat.le_refl 0
  | succ fuel ih =>
    intro attempt base
    unfold callGeminiLoop
    rcases resp attempt with _ | _ | s | _ | _ <;> dsimp only
    · simp
    · simpa using ih (attempt + 1) base
    · by_cases hs : s.isEmpty
      · rw [if_pos hs]
        simpa using ih (attempt + 1) base
      · rw [if_neg hs]
        simp
    · simpa using ih (attempt + 1) (max 15 base)
    · simpa using ih (attempt + 1) base

theorem callGeminiLoop_allfail (resp : Nat → ApiAttempt) :
    ∀ fuel attempt base,
    (∀ i, attempt ≤ i → i < attempt + fuel → isApiSuccess (resp i) = false) →
    (callGeminiLoop resp fuel attempt base).1 = none := by
  intro fuel
  induction fuel with
  | zero => intro attempt base _; rfl
  | succ fuel ih =>
    intro attempt base hfail
    have hthis := hfail attempt (Nat.le_refl _) (by omega)
    have hrest : ∀ i, attempt + 1 ≤ i → i < attempt + 1 + fuel → isApiSuccess (resp i) = false :=
      fun i h1 h2 => hfail i (by omega) (by omega)
    unfold callGeminiLoop
    rcases hr : resp attempt with _ | _ | s | _ | _ <;> dsimp only
    · exact ih (attempt + 1) base hrest
    · rw [hr] at hthis
      have hs : s.isEmpty := by simpa [isApiSuccess] using hthis
      rw [if_pos hs]
      exact ih (attempt + 1) base hrest
    · exact ih (attempt + 1) (max 15 base) hrest
    · exact ih (attempt + 1) base hrest

theorem callGeminiLoop_base_mono (resp : Nat → ApiAttempt) :
    ∀ fuel attempt base, ∀ x ∈ (callGeminiLoop resp fuel attempt base).2, base ≤ x := by
  intro fuel
  induction fuel with
  | zero => intro attempt base x hx; exact absurd hx (List.not_mem_nil x)
  | succ fuel ih =>
    intro attempt base x hx
    unfold callGeminiLoop at hx
    rcases hr : resp attempt with _ | _ | s | _ | _ <;> rw [hr] at hx <;> dsimp only at hx
    · rw [List.mem_singleton.mp hx]
    · rcases List.mem_cons.mp hx with rfl | hx'
      · exact Nat.le_refl _
      · exact ih (attempt + 1) base x hx'
    · by_cases hs : s.isEmpty
      · rw [if_pos hs] at hx
        rcases List.mem_cons.mp hx with rfl | hx'
        · exact Nat.le_refl _
        · exact ih (attempt + 1) base x hx'
      · rw [if_neg hs] at hx
        rw [List.mem_singleton.mp hx]
    · rcases List.mem_cons.mp hx with rfl | hx'
      · exact Nat.le_refl _
      · exact Nat.le_trans (Nat.le_max_right 15 base) (ih (attempt + 1) (max 15 base) x hx')
    · rcases List.mem_cons.mp hx with rfl | hx'
      · exact Nat.le_refl _
      · exact ih (attempt + 1) base x hx'

theorem callGeminiLoop_quota (resp : Nat → ApiAttempt) :
    ∀ fuel attempt base i, resp (attempt + i) = ApiAttempt.errQuota →
    ∀ x ∈ (callGeminiLoop resp fuel attempt base).2.drop (i + 1), 15 ≤ x := by
  intro fuel
  induction fuel with
  | zero => intro attempt base i _ x hx; exact absurd hx (List.not_mem_nil x)
  | succ fuel ih =>
    intro attempt base i hq x hx
    unfold callGeminiLoop at hx
    rcases i with _ | i'
    · -- the quota failure happens at this very attempt
      rw [Nat.add_zero] at hq
      rw [hq] at hx
      dsimp only at hx
      rw [List.drop_succ_cons, List.drop_zero] at hx
      exact Nat.le_trans (Nat.le_max_left 15 base)
        (callGeminiLoop_base_mono resp fuel (attempt + 1) (max 15 base) x hx)
    · have hq' : resp (attempt + 1 + i') = ApiAttempt.errQuota := by
        rw [show attempt + 1 + i' = attempt + (i' + 1) by omega]
        exact hq
      rcases hr : resp attempt with _ | _ | s | _ | _ <;> rw [hr] at hx <;> dsimp only at hx
      · rw [show ([base] : List Nat).drop (i' + 1 + 1) = [] by simp] at hx
        exact absurd hx (List.not_mem_nil x)
      · rw [List.drop_succ_cons] at hx
        exact ih (attempt + 1) base i' hq' x hx
      · by_cases hs : s.isEmpty
        · rw [if_pos hs, List.drop_succ_cons] at hx
          exact ih (attempt + 1) base i' hq' x hx
        · rw [if_neg hs, show ([base] : List Nat).drop (i' + 1 + 1) = [] by simp] at hx
          exact absurd hx (List.not_mem_nil x)
      · rw [List.drop_succ_cons] at hx
        exact ih (attempt + 1) (max 15 base) i' hq' x hx
      · rw [List.drop_succ_cons] at hx
        exact ih (attempt + 1) base i' hq' x hx

/-- **C7** (`_call_gemini_api`, correcaoKDP.py 274-374).  A single transform
call performs at most 5 external calls; if no attempt succeeds (no non-empty
text is extracted within the first 5 responses) the call returns the
explicit failure value `None` — the embedding is a total function, so no
exception escapes to the caller; and after an attempt fails with a
rate-limit/quota condition, the base wait in effect at every later attempt
is at least 15 seconds (raised from the initial 5). -/
theorem c7_retry_limit (resp : Nat → ApiAttempt) :
    (call_gemini_api resp).2.length ≤ 5 ∧
    ((∀ i, i < 5 → isApiSuccess (resp i) = false) → (call_gemini_api resp).1 = none) ∧
    (∀ i, resp i = ApiAttempt.errQuota →
      ∀ x ∈ (call_gemini_api resp).2.drop (i + 1), 15 ≤ x) :=
  ⟨callGeminiLoop_calls_le resp 5 0 5,
   fun h => callGeminiLoop_allfail resp 5 0 5 (fun i _ h2 => h i (by omega)),
   fun i hq => callGeminiLoop_quota resp 5 0 5 i (by rwa [Nat.zero_add])⟩

theorem c7_witness :
    (call_gemini_api (fun _ => ApiAttempt.errQuota)).2.length ≤ 5 ∧
    (call_gemini_api (fun _ => ApiAttempt.errQuota)).1 = none ∧
    (∀ x ∈ (call_gemini_api (fun _ => ApiAttempt.errQuota)).2.drop 1, 15 ≤ x) := by
  have h := c7_retry_limit (fun _ => ApiAttempt.errQuota)
  exact ⟨h.1, h.2.1 (fun i _ => rfl), h.2.2 0 rfl⟩

/-! ## Claim C8: the page-break sentinel (`generate_docx`,
src/processor.py, lines 529-628)

`generate_docx` does `parts = text.split(PAGE_BREAK_MARKER)` and emits a
page break before every part except the first; within a part it splits on
blank lines, skips empty paragraphs, and classifies each paragraph by the
chapter regex (abstracted here as a parameter — no claim depends on it) and
by `para_text.startswith(AI_FAILURE_MARKER)`.  `str.split` is plain
substring search: nothing anchors the marker to a line. -/

def PAGE_BREAK_MARKER : List Char := "===QUEBRA_DE_PAGINA===".data

/-- Python `text.split(PAGE_BREAK_MARKER)` (leftmost, non-overlapping);
fuel-driven so that it stays structurally recursive — one unit of fuel per
consumed character is always enough, and the fuel-exhausted default never
fires for the inputs used. -/
def splitPBGo : Nat → List Char → List Char × List (List Char)
  | 0, l => (l, [])
  | _ + 1, [] => ([], [])
  | fuel + 1, c :: rest =>
    if PAGE_BREAK_MARKER.isPrefixOf (c :: rest) then
      let s := splitPBGo fuel (List.drop PAGE_BREAK_MARKER.length (c :: rest))
      ([], s.1 :: s.2)
    else
      let s := splitPBGo fuel rest
      (c :: s.1, s.2)

def splitPB (l : List Char) : List Char × List (List Char) :=
  splitPBGo l.length l

inductive DocEvent
  | pageBreak
  | para (text : List Char) (isChapter : Bool) (isError : Bool)
deriving DecidableEq

/-- The paragraph events of one part. -/
def partEvents (isChapter : List Char → Bool) (part : List Char) : List DocEvent :=
  (splitPara (pyStrip part)).filterMap (fun p0 =>
    let p := pyStrip p0
    if p.isEmpty then none
    else some (DocEvent.para p (isChapter p) (AI_FAILURE_MARKER.isPrefixOf p)))

/-- The document-construction event stream of `generate_docx`: a page break
before every part after the first, then the part's paragraphs. -/
def generate_docx_events (isChapter : List Char → Bool) (text : List Char) : List DocEvent :=
  partEvents isChapter (splitPB text).1 ++
    ((splitPB text).2.map (fun part => DocEvent.pageBreak :: partEvents isChapter part)).foldr
      (· ++ ·) []

def isPageBreak : DocEvent → Bool
  | .pageBreak => true
  | .para _ _ _ => false

/-- `"\n\n".join` inverse of `splitPB`: each later piece is preceded by one
occurrence of the marker. -/
def joinPB (d : List Char × List (List Char)) : List Char :=
  d.1 ++ (d.2.map (fun p => PAGE_BREAK_MARKER ++ p)).foldr (· ++ ·) []

theorem joinPB_splitPBGo : ∀ (fuel : Nat) (l : List Char),
    joinPB (splitPBGo fuel l) = l := by
  intro fuel
  induction fuel with
  | zero => intro l; simp [splitPBGo, joinPB]
  | succ fuel ih =>
    intro l
    match l with
    | [] => simp [splitPBGo, joinPB]
    | c :: rest =>
      by_cases hp : PAGE_BREAK_MARKER.isPrefixOf (c :: rest)
      · rw [show splitPBGo (fuel + 1) (c :: rest) =
            ([], (splitPBGo fuel (List.drop PAGE_BREAK_MARKER.length (c :: rest))).1 ::
              (splitPBGo fuel (List.drop PAGE_BREAK_MARKER.length (c :: rest))).2) by
          rw [splitPBGo, if_pos hp]]
        have hpre : PAGE_BREAK_MARKER ++ List.drop PAGE_BREAK_MARKER.length (c :: rest) = c :: rest :=
          List.prefix_iff_eq_append.mp (List.isPrefixOf_iff_prefix.mp hp)
        have := ih (List.drop PAGE_BREAK_MARKER.length (c :: rest))
        unfold joinPB at this ⊢
        simp only [List.map_cons, List.foldr_cons, List.nil_append]
        rw [List.append_assoc, this, hpre]
      · rw [show splitPBGo (fuel + 1) (c :: rest) =
            (c :: (splitPBGo fuel rest).1, (splitPBGo fuel rest).2) by
          rw [splitPBGo, if_neg hp]]
        have := ih rest
        unfold joinPB at this ⊢
        simpa using this

theorem countP_partEvents (isChapter : List Char → Bool) (part : List Char) :
    (partEvents isChapter part).countP isPageBreak = 0 := by
  rw [List.countP_eq_zero]
  intro e he
  rcases List.mem_filterMap.mp he with ⟨p0, _, hp0⟩
  by_cases hemp : (pyStrip p0).isEmpty
  · rw [if_pos hemp] at hp0
    exact Option.noConfusion hp0
  · rw [if_neg hemp] at hp0
    rw [← Option.some_inj.mp hp0]
    simp [isPageBreak]

theorem countP_pb_parts (isChapter : List Char → Bool) :
    ∀ (parts : List (List Char)),
    ((parts.map (fun part => DocEvent.pageBreak :: partEvents isChapter part)).foldr
      (· ++ ·) []).countP isPageBreak = parts.length := by
  intro parts
  induction parts with
  | nil => rfl
  | cons p ps ih =>
    rw [List.map_cons, List.foldr_cons, List.countP_append, List.countP_cons, ih,
      countP_partEvents]
    simp [isPageBreak]
    omega

/-- **C8, counterexample.**  The input `"a===QUEBRA_DE_PAGINA===b"` contains
no newline at all, so the sentinel is embedded in a line together with other
text — yet the reconstruction emits a page break for it (`text.split`
performs plain substring search). -/
theorem c8_counterexample :
    generate_docx_events (fun _ => false) "a===QUEBRA_DE_PAGINA===b".data =
      [DocEvent.para "a".data false false, DocEvent.pageBreak,
        DocEvent.para "b".data false false] ∧
    DocEvent.pageBreak ∈ generate_docx_events (fun _ => false) "a===QUEBRA_DE_PAGINA===b".data ∧
    '\n' ∉ "a===QUEBRA_DE_PAGINA===b".data := by
  decide

/-- **C8, amended** (`generate_docx`, `src/processor.py` 548-552).  Document
reconstruction splits on every occurrence of the page-break sentinel,
regardless of the surrounding text on the line: the event stream contains
exactly one page break per (leftmost, non-overlapping) occurrence of the
sentinel — `(splitPB text).2.length` of them, where the split decomposition
faithfully reconstructs the text (first conjunct).  Recognition is *not*
restricted to the sentinel standing alone on its own line
(`c8_counterexample`). -/
theorem c8_page_break_split (isChapter : List Char → Bool) (text : List Char) :
    joinPB (splitPB text) = text ∧
    (generate_docx_events isChapter text).countP isPageBreak = (splitPB text).2.length := by
  refine ⟨joinPB_splitPBGo text.length text, ?_⟩
  unfold generate_docx_events
  rw [List.countP_append, countP_partEvents, countP_pb_parts]
  simp

/-! ## Claims C9 and C10: `CorrectionCache` (src/processor.py, lines 76-138)

Two SQLite tables, `corrections(hash PRIMARY KEY, original, corrected,
model)` and `footnotes(hash PRIMARY KEY, marked_text, model)`, both keyed by
`sha256(text)[:32]`.  The digest is abstracted as a parameter
`hash : List Char → List Char`; "the same text" in the content-addressed
store means "the same digest".  `INSERT OR REPLACE` replaces the row with
the same primary key (last write wins); `get_*` selects the single row with
the given key. -/

structure CorrectionRow where
  original : List Char
  corrected : List Char
  model : List Char
deriving DecidableEq

structure FootnoteRow where
  marked : List Char
  model : List Char
deriving DecidableEq

structure CacheState where
  corrections : List (List Char × CorrectionRow)
  footnotes : List (List Char × FootnoteRow)
deriving DecidableEq

def get_correction (hash : List Char → List Char) (st : CacheState) (text : List Char) :
    Option (List Char) :=
  (st.corrections.find? (fun p => p.1 = hash text)).map (fun p => p.2.corrected)

def set_correction (hash : List Char → List Char) (st : CacheState)
    (original corrected model : List Char) : CacheState :=
  { st with corrections :=
      (hash original, ⟨original, corrected, model⟩) ::
        st.corrections.filter (fun p => ¬p.1 = hash original) }

def get_footnotes (hash : List Char → List Char) (st : CacheState) (text : List Char) :
    Option (List Char) :=
  (st.footnotes.find? (fun p => p.1 = hash text)).map (fun p => p.2.marked)

def set_footnotes (hash : List Char → List Char) (st : CacheState)
    (original marked model : List Char) : CacheState :=
  { st with footnotes :=
      (hash original, ⟨marked, model⟩) ::
        st.footnotes.filter (fun p => ¬p.1 = hash original) }

/-- The two pipeline stages and their stage-indexed cache interface. -/
inductive Stage | correction | footnotes
deriving DecidableEq

def cacheGet (hash : List Char → List Char) (st : CacheState) :
    Stage → List Char → Option (List Char)
  | .correction, text => get_correction hash st text
  | .footnotes, text => get_footnotes hash st text

def cachePut (hash : List Char → List Char) (st : CacheState) :
    Stage → List Char → List Char → List Char → CacheState
  | .correction, text, result, model => set_correction hash st text result model
  | .footnotes, text, result, model => set_footnotes hash st text result model

/-- One put operation: (stage, text, result, model). -/
def applyPuts (hash : List Char → List Char) (st : CacheState)
    (ops : List (Stage × List Char × List Char × List Char)) : CacheState :=
  ops.foldl (fun st op => cachePut hash st op.1 op.2.1 op.2.2.1 op.2.2.2) st

theorem get_correction_set_correction_self (hash : List Char → List Char)
    (st : CacheState) (t r m : List Char) :
    get_correction hash (set_correction hash st t r m) t = some r := by
  unfold get_correction set_correction
  simp [List.find?_cons]

theorem find?_filter_of_imp {α : Type} (l : List α) (p q : α → Bool)
    (h : ∀ x, p x = true → q x = true) :
    (l.filter q).find? p = l.find? p := by
  induction l with
  | nil => rfl
  | cons a l ih =>
    by_cases hq : q a = true
    · rw [List.filter_cons_of_pos hq]
      by_cases hp : p a = true
      · rw [List.find?_cons_of_pos _ hp, List.find?_cons_of_pos _ hp]
      · rw [List.find?_cons_of_neg _ (by simpa using hp),
          List.find?_cons_of_neg _ (by simpa using hp), ih]
    · have hp : ¬p a = true := fun hpa => hq (h a hpa)
      rw [List.filter_cons_of_neg (by simpa using hq), ih,
        List.find?_cons_of_neg _ (by simpa using hp)]

theorem get_correction_set_correction_other (hash : List Char → List Char)
    (st : CacheState) (t r m t' : List Char) (hne : hash t ≠ hash t') :
    get_correction hash (set_correction hash st t r m) t' = get_correction hash st t' := by
  unfold get_correction set_correction
  dsimp only
  rw [List.find?_cons_of_neg _ (by simpa using hne),
    find?_filter_of_imp _ _ _ (fun x hx => by
      simp only [decide_eq_true_eq] at hx ⊢
      rw [hx]
      exact fun he => hne he.symm)]

theorem get_footnotes_set_footnotes_self (hash : List Char → List Char)
    (st : CacheState) (t r m : List Char) :
    get_footnotes hash (set_footnotes hash st t r m) t = some r := by
  unfold get_footnotes set_footnotes
  simp [List.find?_cons]

theorem get_footnotes_set_footnotes_other (hash : List Char → List Char)
    (st : CacheState) (t r m t' : List Char) (hne : hash t ≠ hash t') :
    get_footnotes hash (set_footnotes hash st t r m) t' = get_footnotes hash st t' := by
  unfold get_footnotes set_footnotes
  dsimp only
  rw [List.find?_cons_of_neg _ (by simpa using hne),
    find?_filter_of_imp _ _ _ (fun x hx => by
      simp only [decide_eq_true_eq] at hx ⊢
      rw [hx]
      exact fun he => hne he.symm)]

theorem cacheGet_cachePut_frame (hash : List Char → List Char) (st : CacheState)
    (s s' : Stage) (t t' r m : List Char) (h : ¬(s' = s ∧ hash t' = hash t)) :
    cacheGet hash (cachePut hash st s' t' r m) s t = cacheGet hash st s t := by
  cases s <;> cases s'
  · exact get_correction_set_correction_other hash st t' r m t
      (fun he => h ⟨rfl, he⟩)
  · rfl
  · rfl
  · exact get_footnotes_set_footnotes_other hash st t' r m t
      (fun he => h ⟨rfl, he⟩)

theorem cacheGet_applyPuts_frame (hash : List Char → List Char) (s : Stage) (t : List Char) :
    ∀ (ops : List (Stage × List Char × List Char × List Char)) (st : CacheState),
    (∀ op ∈ ops, ¬(op.1 = s ∧ hash op.2.1 = hash t)) →
    cacheGet hash (applyPuts hash st ops) s t = cacheGet hash st s t := by
  intro ops
  induction ops with
  | nil => intro st _; rfl
  | cons op ops ih =>
    intro st hops
    show cacheGet hash (applyPuts hash (cachePut hash st op.1 op.2.1 op.2.2.1 op.2.2.2) ops) s t
      = cacheGet hash st s t
    rw [ih _ (fun o ho => hops o (List.mem_cons_of_mem op ho)),
      cacheGet_cachePut_frame hash st s op.1 t op.2.1 op.2.2.1 op.2.2.2
        (hops op (List.mem_cons_self op ops))]

/-- **C9** (`CorrectionCache.get_correction` / `set_correction` and the
footnotes pair, `src/processor.py` 108-138).  The store is content-addressed
by digest, so "the same stage and text" is read at the key level (equal
digest).  For every stage, a get performed after a put of
`(stage, text, result)` — with no intervening put for the same stage and
key — returns exactly `result`, whatever other entries the store holds and
whatever puts for other stages or other keys intervene; and a repeated put
for the same `(stage, text)` replaces the stored value (`INSERT OR
REPLACE`): the later result wins.  A second identical stage run therefore
finds every chunk's cached result. -/
theorem c9_cache_memoization (hash : List Char → List Char) (st : CacheState)
    (s : Stage) (t r r' m m' : List Char)
    (ops : List (Stage × List Char × List Char × List Char))
    (hops : ∀ op ∈ ops, ¬(op.1 = s ∧ hash op.2.1 = hash t)) :
    cacheGet hash (applyPuts hash (cachePut hash st s t r m) ops) s t = some r ∧
    cacheGet hash (cachePut hash (cachePut hash st s t r m) s t r' m') s t = some r' := by
  constructor
  · rw [cacheGet_applyPuts_frame hash s t ops _ hops]
    cases s
    · exact get_correction_set_correction_self hash st t r m
    · exact get_footnotes_set_footnotes_self hash st t r m
  · cases s
    · exact get_correction_set_correction_self hash _ t r' m'
    · exact get_footnotes_set_footnotes_self hash _ t r' m'

theorem c9_witness :
    cacheGet (fun l => l) (applyPuts (fun l => l)
        (cachePut (fun l => l) ⟨[], []⟩ Stage.correction "x".data "y".data "m".data)
        [(Stage.footnotes, "x".data, "z".data, "m".data)])
      Stage.correction "x".data = some "y".data ∧
    cacheGet (fun l => l) (cachePut (fun l => l)
        (cachePut (fun l => l) ⟨[], []⟩ Stage.correction "x".data "y".data "m".data)
        Stage.correction "x".data "y2".data "m".data)
      Stage.correction "x".data = some "y2".data :=
  c9_cache_memoization (fun l => l) ⟨[], []⟩ Stage.correction "x".data "y".data "y2".data
    "m".data "m".data [(Stage.footnotes, "x".data, "z".data, "m".data)]
    (by decide)

/-- **C10** (`CorrectionCache._init_db` / `set_correction` / `set_footnotes`,
`src/processor.py` 84-138).  The two stages' stores are disjoint tables:
for all texts `t` and `t'`, writing a correction entry leaves every
`get_footnotes` result unchanged, and writing a footnotes entry leaves
every `get_correction` result unchanged — each put mutates only its own
stage's table. -/
theorem c10_cache_disjoint (hash : List Char → List Char) (st : CacheState)
    (t r m t' : List Char) :
    get_footnotes hash (set_correction hash st t r m) t' = get_footnotes hash st t' ∧
    get_correction hash (set_footnotes hash st t r m) t' = get_correction hash st t' :=
  ⟨rfl, rfl⟩
